import Mathlib

/-!
Verification of the maas-eks-cdk repository against its specification.

The repository itself contains a CDK stack (`CdkProjectsStack`) plus shell
glue; the specification additionally describes an implied declarative
cluster-provisioning orchestrator (Spec Model, Plan Engine, Executor,
State Store) that the repository does not implement.  Definitions for the
orchestrator below are therefore modelled from the spec; definitions for
`CdkProjectsStack` are translated from `lib/cdk-projects-stack.ts`
(embedded in `setup-env.sh` in this source snapshot).
-/

set_option maxRecDepth 4000

/-- Network placement mode of a ClusterSpec: reuse an existing VPC by id or
create a new one. -/
inductive NetworkMode
  | existingVpc (vpcId : String)
  | createNew
  deriving DecidableEq, Repr

/-- Subnet placement mode of a node group. -/
inductive SubnetMode
  | privateWithEgress
  | publicSubnets
  deriving DecidableEq, Repr

/-- Access level of a team binding. -/
inductive AccessLevel
  | admin
  | edit
  | view
  deriving DecidableEq, Repr

/-- Modelled from the spec: NodeGroupSpec — id, instance type, min/max/desired
size, subnet placement mode.  The repository configures exactly one such
group (`mng1`). -/
structure NodeGroupSpec where
  id : String
  instanceType : String
  minSize : Nat
  maxSize : Nat
  desiredSize : Nat
  subnetMode : SubnetMode
  deriving DecidableEq, Repr

/-- Modelled from the spec: AddOnSpec — name, version constraint, ordered
dependency list (names of prerequisite add-ons). -/
structure AddOnSpec where
  name : String
  version : String
  dependsOn : List String
  deriving DecidableEq, Repr

/-- Principal/access pair of a team binding. -/
structure AccessPair where
  principal : String
  level : AccessLevel
  deriving DecidableEq, Repr

/-- Modelled from the spec: TeamSpec — name plus (principal, accessLevel)
pairs. -/
structure TeamSpec where
  name : String
  access : List AccessPair
  deriving DecidableEq, Repr

/-- Modelled from the spec: ClusterSpec — account id, region, network mode,
node groups, add-ons, teams. -/
structure ClusterSpec where
  accountId : String
  region : String
  network : NetworkMode
  nodeGroups : List NodeGroupSpec
  addOns : List AddOnSpec
  teams : List TeamSpec
  deriving DecidableEq, Repr

/-- Error taxonomy of the orchestrator (spec section 7), run-level outcomes
aside. -/
inductive OrchError
  | invalidSpec
  | planConflict
  | driftDetected
  | providerTransient
  | providerPermanent
  deriving DecidableEq, Repr

/-- Node-group size bounds check: `min ≤ desired ≤ max` for every group. -/
def ngBoundsOkB (s : ClusterSpec) : Bool :=
  s.nodeGroups.all fun ng => ng.minSize ≤ ng.desiredSize && ng.desiredSize ≤ ng.maxSize

/-- Add-on dependency satisfiability check: every declared prerequisite names
an add-on present in the spec. -/
def addOnDepsOkB (s : ClusterSpec) : Bool :=
  s.addOns.all fun a => a.dependsOn.all fun d => s.addOns.any fun b => b.name == d

/-- Uniqueness check for node-group and team ids. -/
def uniqueIdsOkB (s : ClusterSpec) : Bool :=
  decide (s.nodeGroups.map (·.id)).Nodup && decide (s.teams.map (·.name)).Nodup

/-- Modelled from the spec: Spec Model validation (section 4.1) — fails with
`InvalidSpec` if node-group size bounds are violated, an add-on dependency is
unsatisfiable, or duplicate node-group/team ids exist. -/
def validateSpec (s : ClusterSpec) : Except OrchError Unit :=
  if ngBoundsOkB s && addOnDepsOkB s && uniqueIdsOkB s then Except.ok ()
  else Except.error OrchError.invalidSpec

/-- Modelled from the spec: a Spec Model is a ClusterSpec that passed
validation on construction. -/
structure SpecModel where
  spec : ClusterSpec
  valid : validateSpec spec = Except.ok ()

/-- Node group `mng1` as configured in `CdkProjectsStack`
(t3.medium, minSize 1, maxSize 5, desiredSize 2, private-with-egress). -/
def repoMng1 : NodeGroupSpec :=
  { id := "mng1"
    instanceType := "t3.medium"
    minSize := 1
    maxSize := 5
    desiredSize := 2
    subnetMode := SubnetMode.privateWithEgress }

/-- Names of the seven add-ons registered by `CdkProjectsStack`, in source
order. -/
def repoAddOnNames : List String :=
  ["CoreDns", "KubeProxy", "VpcCni", "MetricsServer", "ClusterAutoScaler",
   "AwsLoadBalancerController", "ContainerInsights"]

/-- The ClusterSpec corresponding to the repository's CDK configuration:
account and region from `bin/cdk-projects.ts`, the existing VPC id passed
there, the single node group `mng1`, the seven add-ons (no declared version
constraints or prerequisites in the source), and no teams. -/
def repoSpec : ClusterSpec :=
  { accountId := "471727841202"
    region := "us-east-1"
    network := NetworkMode.existingVpc "vpc-00e9c2080fc3a870f"
    nodeGroups := [repoMng1]
    addOns := repoAddOnNames.map fun n => { name := n, version := "", dependsOn := [] }
    teams := [] }

/-- The repository's spec passes Spec Model validation. -/
def repoModel : SpecModel :=
  ⟨repoSpec, rfl⟩

/-- Logical resource identifiers managed by the orchestrator. -/
inductive ResourceId
  | cluster
  | nodeGroup (id : String)
  | addOn (name : String)
  | team (name : String)
  deriving DecidableEq, Repr

/-- Desired attributes of a logical resource, as recorded in the State Store
and compared during drift/diff classification. -/
inductive EntityAttrs
  | cluster (network : NetworkMode)
  | nodeGroup (instanceType : String) (minSize maxSize desiredSize : Nat)
      (subnetMode : SubnetMode)
  | addOn (version : String) (dependsOn : List String)
  | team (access : List AccessPair)
  deriving DecidableEq, Repr

/-- Modelled from the spec: ResourceRecord — State Store entry mapping a
logical resource to its provider identifier and last-observed attributes. -/
structure ResourceRecord where
  rid : ResourceId
  providerId : String
  attrs : EntityAttrs
  deriving DecidableEq, Repr

/-- Modelled from the spec: State Store — last-applied spec plus the set of
ResourceRecords, keyed by resource id. -/
structure StateStore where
  lastSpec : Option ClusterSpec
  records : List ResourceRecord
  deriving DecidableEq, Repr

/-- Lookup of the record stored for a resource id. -/
def StateStore.lookup (st : StateStore) (r : ResourceId) : Option ResourceRecord :=
  st.records.find? fun rec => rec.rid = r

/-- Atomic single-record save: replaces any record with the same id. -/
def StateStore.save (st : StateStore) (rec : ResourceRecord) : StateStore :=
  { st with records := rec :: st.records.filter fun old => old.rid ≠ rec.rid }

/-- Atomic single-record removal by resource id. -/
def StateStore.remove (st : StateStore) (r : ResourceId) : StateStore :=
  { st with records := st.records.filter fun old => old.rid ≠ r }

/-- The empty State Store: no last-applied spec, no live resources. -/
def store0 : StateStore :=
  { lastSpec := none, records := [] }

/-- Desired entities of a ClusterSpec: each logical resource with its desired
attributes and its dependency predecessors — node groups depend on the
cluster; add-ons depend on their declared prerequisites and on the cluster;
team bindings depend on the cluster (spec section 4.3). -/
def desiredEntities (s : ClusterSpec) :
    List (ResourceId × EntityAttrs × List ResourceId) :=
  (ResourceId.cluster, EntityAttrs.cluster s.network, []) ::
  (s.nodeGroups.map fun ng =>
    (ResourceId.nodeGroup ng.id,
     EntityAttrs.nodeGroup ng.instanceType ng.minSize ng.maxSize ng.desiredSize ng.subnetMode,
     [ResourceId.cluster])) ++
  (s.addOns.map fun a =>
    (ResourceId.addOn a.name,
     EntityAttrs.addOn a.version a.dependsOn,
     ResourceId.cluster :: a.dependsOn.map ResourceId.addOn)) ++
  (s.teams.map fun t =>
    (ResourceId.team t.name, EntityAttrs.team t.access, [ResourceId.cluster]))

/-- Desired attributes of a resource id inside a spec, when the resource is
part of the desired state. -/
def desiredAttrs (s : ClusterSpec) (r : ResourceId) : Option EntityAttrs :=
  ((desiredEntities s).find? fun e => e.1 = r).map fun e => e.2.1

/-- Plan skeleton: a resource id together with its dependency predecessors,
before diff classification. -/
abbrev Skel := ResourceId × List ResourceId

/-- Skeletons of a plan: one per desired entity, plus one (dependency-free)
delete candidate per stored record whose resource is absent from the desired
spec. -/
def planSkeletons (s : ClusterSpec) (st : StateStore) : List Skel :=
  (desiredEntities s).map (fun e => (e.1, e.2.2)) ++
  ((st.records.filter fun rec =>
      ((desiredEntities s).find? fun e => e.1 = rec.rid) = none).map
    fun rec => (rec.rid, []))

/-- Numeric code of a string, used for deterministic resource-id ordering. -/
def strKey (s : String) : List Nat :=
  s.data.map fun c => c.toNat

/-- Sort key of a resource id: constructor rank followed by the character
codes of the name, so ids compare in a fixed ascending order. -/
def ResourceId.key : ResourceId → List Nat
  | ResourceId.cluster => [0]
  | ResourceId.nodeGroup i => 1 :: strKey i
  | ResourceId.addOn n => 2 :: strKey n
  | ResourceId.team n => 3 :: strKey n

/-- Lexicographic strict order on numeric keys. -/
def keyLt : List Nat → List Nat → Bool
  | [], [] => false
  | [], _ :: _ => true
  | _ :: _, [] => false
  | a :: as, b :: bs => a < b || (a == b && keyLt as bs)

/-- Selection of the skeleton with the smallest resource-id key. -/
def minSkel (x : Skel) (l : List Skel) : Skel :=
  l.foldl (fun b y => if keyLt y.1.key b.1.key then y else b) x

/-- Readiness of a skeleton: every dependency has already been emitted, or is
not a resource of this plan at all. -/
def readyB (emitted : List ResourceId) (allRes : List ResourceId) (sk : Skel) : Bool :=
  sk.2.all fun d => d ∈ emitted || d ∉ allRes

/-- Removal of the first occurrence of a chosen skeleton. -/
def eraseFirst : List Skel → Skel → List Skel
  | [], _ => []
  | y :: ys, c => if y = c then ys else y :: eraseFirst ys c

/-- Kahn's algorithm with deterministic minimum-id selection, fuelled by the
number of remaining skeletons; fails (cycle) when no skeleton is ready. -/
def topoGo (allRes : List ResourceId) :
    Nat → List Skel → List Skel → Option (List Skel)
  | 0, remaining, acc => if remaining = [] then some acc else none
  | fuel + 1, remaining, acc =>
    if remaining = [] then some acc
    else
      match remaining.filter (readyB (acc.map (·.1)) allRes) with
      | [] => none
      | x :: xs =>
        let c := minSkel x xs
        topoGo allRes fuel (eraseFirst remaining c) (acc ++ [c])

/-- Topological sort of a skeleton list with ties broken by ascending
resource id; `none` when the dependency graph has a cycle. -/
def topoSort (skels : List Skel) : Option (List Skel) :=
  topoGo (skels.map (·.1)) skels.length skels []

/-- Classification tag of a change step. -/
inductive StepAction
  | create
  | update
  | delete
  | noop
  deriving DecidableEq, Repr

/-- Modelled from the spec: ChangeStep — the targeted resource, its
classification, its dependency predecessors, and (except for deletions) the
desired attributes the step establishes. -/
structure ChangeStep where
  resource : ResourceId
  action : StepAction
  deps : List ResourceId
  attrs : Option EntityAttrs
  deriving DecidableEq, Repr

/-- Modelled from the spec: ChangePlan — ordered list of ChangeSteps. -/
structure ChangePlan where
  steps : List ChangeStep
  deriving DecidableEq, Repr

/-- Result of one mutating Provider Adapter attempt. -/
inductive ApplyResult
  | ok
  | transient
  | permanent
  deriving DecidableEq, Repr

/-- Modelled from the spec: Provider Adapter — observation of a resource's
live attributes and a mutating call per (resource, action, attempt). -/
structure Adapter where
  observe : ResourceId → Option EntityAttrs
  applyCall : ResourceId → StepAction → Nat → ApplyResult

/-- Request issued to the Provider Adapter. -/
inductive ProviderCall
  | observe (r : ResourceId)
  | applyStep (r : ResourceId) (a : StepAction)
  deriving DecidableEq, Repr

/-- Classification of one skeleton against the State Store: create when
absent from the store, noop when recorded with identical attributes, update
when recorded with different attributes, delete when the resource is no
longer desired. -/
def classify (s : ClusterSpec) (st : StateStore) (sk : Skel) : ChangeStep :=
  match desiredAttrs s sk.1 with
  | some a =>
    match st.lookup sk.1 with
    | none => ⟨sk.1, StepAction.create, sk.2, some a⟩
    | some rec =>
      if rec.attrs = a then ⟨sk.1, StepAction.noop, sk.2, some a⟩
      else ⟨sk.1, StepAction.update, sk.2, some a⟩
  | none => ⟨sk.1, StepAction.delete, sk.2, none⟩

/-- Drift check of the recorded resources against the adapter's observation:
passes when every stored record is observed live with identical attributes. -/
def driftFreeB (st : StateStore) (ad : Adapter) : Bool :=
  st.records.all fun rec => ad.observe rec.rid = some rec.attrs

/-- Modelled from the spec: Plan Engine (section 4.3) — builds the dependency
graph of the desired spec plus delete candidates, rejects cycles with
`PlanConflict` before any provider call, then queries the adapter for the
observed state of each known resource (drift check, overridable by `force`)
and classifies every skeleton; returns the plan together with the list of
provider calls issued while planning. -/
def planSpec (m : SpecModel) (st : StateStore) (ad : Adapter) (force : Bool) :
    Except OrchError ChangePlan × List ProviderCall :=
  let skels := planSkeletons m.spec st
  match topoSort skels with
  | none => (Except.error OrchError.planConflict, [])
  | some sorted =>
    let trace := st.records.map fun rec => ProviderCall.observe rec.rid
    if force = false && driftFreeB st ad = false then
      (Except.error OrchError.driftDetected, trace)
    else
      (Except.ok ⟨sorted.map (classify m.spec st)⟩, trace)

/-- Per-step status of the Executor's state machine
(`pending → in-progress → {succeeded, failed}`, plus `skipped`). -/
inductive StepStatus
  | pending
  | inProgress
  | succeeded
  | failed
  | skipped
  deriving DecidableEq, Repr

/-- Observable execution event: a step status change or a mutating provider
call. -/
inductive Event
  | change (r : ResourceId) (st : StepStatus)
  | call (r : ResourceId)
  deriving DecidableEq, Repr

/-- Executor state: per-resource terminal report, the State Store, and the
ordered event trace. -/
structure ExecState where
  report : List (ResourceId × StepStatus)
  store : StateStore
  events : List Event
  deriving Repr

/-- Reported status of a resource, when a step for it has been processed. -/
def statusOf (report : List (ResourceId × StepStatus)) (r : ResourceId) :
    Option StepStatus :=
  (report.find? fun e => e.1 = r).map (·.2)

/-- Bounded retry loop of the Executor: transient provider errors are retried
up to the attempt budget, permanent errors fail immediately.  Returns whether
the step succeeded and the provider calls issued. -/
def tryApply (ad : Adapter) (r : ResourceId) (act : StepAction) :
    Nat → Nat → Bool × List Event
  | 0, _ => (false, [])
  | n + 1, i =>
    match ad.applyCall r act i with
    | ApplyResult.ok => (true, [Event.call r])
    | ApplyResult.permanent => (false, [Event.call r])
    | ApplyResult.transient =>
      let rest := tryApply ad r act n (i + 1)
      (rest.1, Event.call r :: rest.2)

/-- Dependency gate of the Executor: every predecessor must have reached
`succeeded`. -/
def depsOkB (report : List (ResourceId × StepStatus)) (deps : List ResourceId) : Bool :=
  deps.all fun d => statusOf report d = some StepStatus.succeeded

/-- Processing of a single ChangeStep: skip when a predecessor is not
succeeded; a noop issues no provider call; otherwise the step enters
in-progress, its provider call is attempted with bounded retries, and on
success the ResourceRecord is written to (or removed from) the State Store
immediately. -/
def processStep (ad : Adapter) (cap : Nat) (es : ExecState) (step : ChangeStep) :
    ExecState :=
  if depsOkB es.report step.deps = false then
    { es with
      report := (step.resource, StepStatus.skipped) :: es.report
      events := es.events ++ [Event.change step.resource StepStatus.skipped] }
  else if step.action = StepAction.noop then
    { es with
      report := (step.resource, StepStatus.succeeded) :: es.report
      events := es.events ++ [Event.change step.resource StepStatus.succeeded] }
  else
    let att := tryApply ad step.resource step.action cap 0
    let evs := es.events ++ Event.change step.resource StepStatus.inProgress :: att.2
    if att.1 then
      { report := (step.resource, StepStatus.succeeded) :: es.report
        store :=
          match step.attrs with
          | some a =>
            if step.action = StepAction.delete then es.store.remove step.resource
            else es.store.save ⟨step.resource, "applied", a⟩
          | none => es.store.remove step.resource
        events := evs ++ [Event.change step.resource StepStatus.succeeded] }
    else
      { es with
        report := (step.resource, StepStatus.failed) :: es.report
        events := evs ++ [Event.change step.resource StepStatus.failed] }

/-- Sequential execution of the steps of a plan, in plan order. -/
def execSteps (ad : Adapter) (cap : Nat) : List ChangeStep → ExecState → ExecState
  | [], es => es
  | s :: rest, es => execSteps ad cap rest (processStep ad cap es s)

/-- Modelled from the spec: Executor (section 4.4) — applies a ChangePlan
against the Provider Adapter starting from the given State Store. -/
def execPlan (p : ChangePlan) (st : StateStore) (ad : Adapter) (cap : Nat) :
    ExecState :=
  execSteps ad cap p.steps ⟨[], st, []⟩

/-- Run-level outcome: success when every step succeeded, otherwise the run
is a partial failure. -/
inductive RunOutcome
  | success
  | partFailure
  deriving DecidableEq, Repr

/-- Outcome of an executor run. -/
def runOutcome (es : ExecState) : RunOutcome :=
  if es.report.all fun e => e.2 = StepStatus.succeeded then RunOutcome.success
  else RunOutcome.partFailure

/-- Numeric field code of a network mode. -/
def NetworkMode.code : NetworkMode → Nat × List Nat
  | NetworkMode.existingVpc v => (0, strKey v)
  | NetworkMode.createNew => (1, [])

/-- Numeric field code of a subnet mode. -/
def SubnetMode.code : SubnetMode → Nat
  | SubnetMode.privateWithEgress => 0
  | SubnetMode.publicSubnets => 1

/-- Numeric field code of an access level. -/
def AccessLevel.code : AccessLevel → Nat
  | AccessLevel.admin => 0
  | AccessLevel.edit => 1
  | AccessLevel.view => 2

/-- Field code of a node group. -/
def NodeGroupSpec.code (ng : NodeGroupSpec) :
    List Nat × List Nat × Nat × Nat × Nat × Nat :=
  (strKey ng.id, strKey ng.instanceType, ng.minSize, ng.maxSize, ng.desiredSize,
   ng.subnetMode.code)

/-- Field code of an add-on. -/
def AddOnSpec.code (a : AddOnSpec) : List Nat × List Nat × List (List Nat) :=
  (strKey a.name, strKey a.version, a.dependsOn.map strKey)

/-- Field code of a team. -/
def TeamSpec.code (t : TeamSpec) : List Nat × List (List Nat × Nat) :=
  (strKey t.name, t.access.map fun p => (strKey p.principal, p.level.code))

/-- Canonical field encoding of a ClusterSpec, covering every field. -/
def ClusterSpec.fields (s : ClusterSpec) :
    List Nat × List Nat × (Nat × List Nat) ×
      List (List Nat × List Nat × Nat × Nat × Nat × Nat) ×
      List (List Nat × List Nat × List (List Nat)) ×
      List (List Nat × List (List Nat × Nat)) :=
  (strKey s.accountId, strKey s.region, s.network.code,
   s.nodeGroups.map NodeGroupSpec.code, s.addOns.map AddOnSpec.code,
   s.teams.map TeamSpec.code)

/-- Modelled from the spec: the deterministic content hash of a ClusterSpec,
used as the plan's idempotency key. -/
def hashSpec (s : ClusterSpec) : Nat :=
  Encodable.encode s.fields

/-- Props of `CdkProjectsStack` (`EksStackProps`): the `env` account and
region plus the optional `vpcId` and `createNewVpc` fields. -/
structure EksStackProps where
  account : Option String
  region : Option String
  vpcId : Option String
  createNewVpc : Option Bool
  deriving DecidableEq, Repr

/-- Security group configuration created for the auxiliary EC2 instance. -/
structure SgCfg where
  vpc : String
  description : String
  allowAllOutbound : Bool
  deriving DecidableEq, Repr

/-- IAM role configuration created for the auxiliary EC2 instance. -/
structure RoleCfg where
  assumedBy : String
  managedPolicy : String
  deriving DecidableEq, Repr

/-- Configuration of the auxiliary private EC2 instance. -/
structure Ec2InstanceCfg where
  vpc : String
  subnetType : SubnetMode
  instanceType : String
  machineImage : String
  deriving DecidableEq, Repr

/-- Cluster configuration handed to the EKS Blueprints builder. -/
structure ClusterCfg where
  version : String
  endpointAccess : String
  managedNodeGroups : List NodeGroupSpec
  addOns : List String
  teams : List String
  deriving DecidableEq, Repr

/-- Resources and configuration produced by one `CdkProjectsStack`
construction. -/
structure StackOutput where
  nameTag : String
  account : Option String
  region : Option String
  vpcProvider : Option String
  vpcForEc2 : Option String
  newVpcLogged : Bool
  cluster : ClusterCfg
  vpcProviderRegistered : Bool
  eksStackId : String
  eksInstanceSg : Option SgCfg
  eksInstanceRole : Option RoleCfg
  eksInstance : Option Ec2InstanceCfg
  deriving DecidableEq, Repr

/-- JavaScript truthiness of the optional `vpcId` string, as tested by
`if (props?.vpcId)`: `undefined` and the empty string are falsy. -/
def truthyStr : Option String → Bool
  | some s => s ≠ ""
  | none => false

/-- Shallow embedding of the `CdkProjectsStack` constructor
(`lib/cdk-projects-stack.ts`): the VPC branch on the truthiness of
`props?.vpcId` and on `props?.createNewVpc !== false`, the fixed EKS
Blueprints builder configuration, conditional registration of the VPC
resource provider, and the conditional auxiliary EC2 instance with its
security group and role. -/
def cdkProjectsStack (id : String) (props : Option EksStackProps) : StackOutput :=
  let vpcIdOpt := props.bind (·.vpcId)
  let branch : Option String × Option String × Bool :=
    if truthyStr vpcIdOpt then (vpcIdOpt, vpcIdOpt, false)
    else if props.bind (·.createNewVpc) ≠ some false then (none, none, true)
    else (none, none, false)
  let vpcProvider := branch.1
  let vpcForEc2 := branch.2.1
  { nameTag := "Maas"
    account := props.bind (·.account)
    region := props.bind (·.region)
    vpcProvider := vpcProvider
    vpcForEc2 := vpcForEc2
    newVpcLogged := branch.2.2
    cluster :=
      { version := "1.25"
        endpointAccess := "PRIVATE"
        managedNodeGroups := [repoMng1]
        addOns := repoAddOnNames
        teams := [] }
    vpcProviderRegistered := vpcProvider.isSome
    eksStackId := id ++ "-eks-cluster"
    eksInstanceSg := vpcForEc2.map fun v =>
      ⟨v, "Security group for private EC2 instance in EKS VPC", true⟩
    eksInstanceRole := vpcForEc2.map fun _ =>
      ⟨"ec2.amazonaws.com", "AmazonSSMManagedInstanceCore"⟩
    eksInstance := vpcForEc2.map fun v =>
      ⟨v, SubnetMode.privateWithEgress, "t3.medium", "AmazonLinux2023"⟩ }

instance instDecEqExcept {e a : Type} [DecidableEq e] [DecidableEq a] :
    DecidableEq (Except e a) := fun x y =>
  match x, y with
  | Except.ok u, Except.ok v => decidable_of_iff (u = v) (by simp)
  | Except.ok _, Except.error _ => isFalse (by simp)
  | Except.error _, Except.ok _ => isFalse (by simp)
  | Except.error u, Except.error v => decidable_of_iff (u = v) (by simp)

/-- Adapter whose observations are all empty and whose mutating calls all
succeed, used for concrete runs. -/
def adapterAllOk : Adapter :=
  ⟨fun _ => none, fun _ _ _ => ApplyResult.ok⟩

/-- Recognizer of node-group resource ids. -/
def ResourceId.isNodeGroup : ResourceId → Bool
  | ResourceId.nodeGroup _ => true
  | _ => false

/-- Recognizer of team resource ids. -/
def ResourceId.isTeam : ResourceId → Bool
  | ResourceId.team _ => true
  | _ => false

/-- Characterization of the node-group bounds check. -/
theorem ngBoundsOkB_iff (s : ClusterSpec) :
    ngBoundsOkB s = true ↔
      ∀ ng ∈ s.nodeGroups, ng.minSize ≤ ng.desiredSize ∧ ng.desiredSize ≤ ng.maxSize := by
  simp [ngBoundsOkB, List.all_eq_true, Bool.and_eq_true, decide_eq_true_eq]

/-- Characterization of the add-on dependency check. -/
theorem addOnDepsOkB_iff (s : ClusterSpec) :
    addOnDepsOkB s = true ↔
      ∀ a ∈ s.addOns, ∀ d ∈ a.dependsOn, ∃ b ∈ s.addOns, b.name = d := by
  simp [addOnDepsOkB, List.all_eq_true, List.any_eq_true, beq_iff_eq]

/-- Characterization of the id-uniqueness check. -/
theorem uniqueIdsOkB_iff (s : ClusterSpec) :
    uniqueIdsOkB s = true ↔
      (s.nodeGroups.map (·.id)).Nodup ∧ (s.teams.map (·.name)).Nodup := by
  simp [uniqueIdsOkB, Bool.and_eq_true]

/-- Specs accepted by the Spec Model are exactly those passing all three
checks. -/
theorem validateSpec_ok_iff (s : ClusterSpec) :
    validateSpec s = Except.ok () ↔
      ngBoundsOkB s = true ∧ addOnDepsOkB s = true ∧ uniqueIdsOkB s = true := by
  unfold validateSpec
  split
  case isTrue hc =>
    simp only [Bool.and_eq_true] at hc
    simp [hc.1.1, hc.1.2, hc.2]
  case isFalse hc =>
    constructor
    · intro h; exact Except.noConfusion h
    · intro ⟨h1, h2, h3⟩
      rw [h1, h2, h3] at hc
      simp at hc

/-- The ChangePlan the Plan Engine computes for the repository's spec against
an empty State Store. -/
def c1Plan : ChangePlan :=
  match (planSpec repoModel store0 adapterAllOk false).1 with
  | Except.ok p => p
  | Except.error _ => ⟨[]⟩

/-- C1: for the repository's ClusterSpec — exactly one node group sized
min=1, max=5, desired=2 — and an empty State Store with no live resources,
the computed ChangePlan has exactly one create step for the cluster, exactly
one node-group step, which is a create step for `mng1` with the cluster step
as dependency predecessor, and zero steps for teams. -/
theorem claim_C1_initial_plan_shape :
    (planSpec repoModel store0 adapterAllOk false).1 = Except.ok c1Plan ∧
    (c1Plan.steps.filter fun st =>
      st.resource = ResourceId.cluster ∧ st.action = StepAction.create).length = 1 ∧
    (c1Plan.steps.filter fun st => st.resource.isNodeGroup).length = 1 ∧
    (c1Plan.steps.filter fun st =>
      st.resource = ResourceId.nodeGroup "mng1" ∧ st.action = StepAction.create ∧
      ResourceId.cluster ∈ st.deps).length = 1 ∧
    (c1Plan.steps.filter fun st => st.resource.isTeam).length = 0 := by
  decide

/-- C2: every NodeGroupSpec of a ClusterSpec accepted by Spec Model
validation satisfies `min ≤ desired ≤ max`, and the single node group the
program configures (`mng1` with min=1, max=5, desired=2) satisfies the
invariant. -/
theorem claim_C2_nodegroup_bounds (s : ClusterSpec)
    (h : validateSpec s = Except.ok ()) :
    (∀ ng ∈ s.nodeGroups, ng.minSize ≤ ng.desiredSize ∧ ng.desiredSize ≤ ng.maxSize) ∧
    (repoMng1.minSize ≤ repoMng1.desiredSize ∧ repoMng1.desiredSize ≤ repoMng1.maxSize) := by
  refine ⟨?_, by decide⟩
  exact (ngBoundsOkB_iff s).mp ((validateSpec_ok_iff s).mp h).1

/-- Witness for C2 at the repository's spec. -/
theorem claim_C2_witness :
    repoMng1.minSize ≤ repoMng1.desiredSize ∧ repoMng1.desiredSize ≤ repoMng1.maxSize :=
  (claim_C2_nodegroup_bounds repoSpec rfl).2

/-- C3: Spec Model construction fails with `InvalidSpec` if and only if a
node-group size bound is violated, an add-on prerequisite is missing, or a
duplicate node-group or team id exists; every spec free of those defects
validates successfully. -/
theorem claim_C3_validation_characterization (s : ClusterSpec) :
    (validateSpec s = Except.error OrchError.invalidSpec ↔
      ((∃ ng ∈ s.nodeGroups,
          ¬ (ng.minSize ≤ ng.desiredSize ∧ ng.desiredSize ≤ ng.maxSize)) ∨
       (∃ a ∈ s.addOns, ∃ d ∈ a.dependsOn, ∀ b ∈ s.addOns, b.name ≠ d) ∨
       ¬ (s.nodeGroups.map (·.id)).Nodup ∨ ¬ (s.teams.map (·.name)).Nodup)) ∧
    (¬ ((∃ ng ∈ s.nodeGroups,
          ¬ (ng.minSize ≤ ng.desiredSize ∧ ng.desiredSize ≤ ng.maxSize)) ∨
        (∃ a ∈ s.addOns, ∃ d ∈ a.dependsOn, ∀ b ∈ s.addOns, b.name ≠ d) ∨
        ¬ (s.nodeGroups.map (·.id)).Nodup ∨ ¬ (s.teams.map (·.name)).Nodup) →
      validateSpec s = Except.ok ()) := by
  have hcases : validateSpec s = Except.ok () ∨
      validateSpec s = Except.error OrchError.invalidSpec := by
    unfold validateSpec; split <;> simp
  have hdef :
      ((∃ ng ∈ s.nodeGroups,
          ¬ (ng.minSize ≤ ng.desiredSize ∧ ng.desiredSize ≤ ng.maxSize)) ∨
       (∃ a ∈ s.addOns, ∃ d ∈ a.dependsOn, ∀ b ∈ s.addOns, b.name ≠ d) ∨
       ¬ (s.nodeGroups.map (·.id)).Nodup ∨ ¬ (s.teams.map (·.name)).Nodup) ↔
      ¬ (ngBoundsOkB s = true ∧ addOnDepsOkB s = true ∧ uniqueIdsOkB s = true) := by
    constructor
    · rintro (⟨ng, hng, hb⟩ | ⟨a, ha, d, hd, hmiss⟩ | hnd | hnd) ⟨h1, h2, h3⟩
      · exact hb (((ngBoundsOkB_iff s).mp h1) ng hng)
      · obtain ⟨b, hbmem, hbn⟩ := ((addOnDepsOkB_iff s).mp h2) a ha d hd
        exact hmiss b hbmem hbn
      · exact hnd ((uniqueIdsOkB_iff s).mp h3).1
      · exact hnd ((uniqueIdsOkB_iff s).mp h3).2
    · intro h
      by_cases hb : ngBoundsOkB s = true
      · by_cases hd : addOnDepsOkB s = true
        · by_cases hu1 : (s.nodeGroups.map (·.id)).Nodup
          · by_cases hu2 : (s.teams.map (·.name)).Nodup
            · exact absurd ⟨hb, hd, (uniqueIdsOkB_iff s).mpr ⟨hu1, hu2⟩⟩ h
            · exact Or.inr (Or.inr (Or.inr hu2))
          · exact Or.inr (Or.inr (Or.inl hu1))
        · rw [addOnDepsOkB_iff] at hd
          push_neg at hd
          obtain ⟨a, ha, d, hdd, hmiss⟩ := hd
          exact Or.inr (Or.inl ⟨a, ha, d, hdd, hmiss⟩)
      · rw [ngBoundsOkB_iff] at hb
        push_neg at hb
        obtain ⟨ng, hng, h1⟩ := hb
        exact Or.inl ⟨ng, hng, fun hc => absurd (h1 hc.1) (not_lt.mpr hc.2)⟩
  constructor
  · rw [hdef]
    constructor
    · intro herr hok
      rw [(validateSpec_ok_iff s).mpr hok] at herr
      exact Except.noConfusion herr
    · intro hnok
      rcases hcases with hv | hv
      · exact absurd ((validateSpec_ok_iff s).mp hv) hnok
      · exact hv
  · intro hfree
    rw [hdef] at hfree
    exact (validateSpec_ok_iff s).mpr (not_not.mp hfree)

/-- Witness for C3 at the repository's spec, which is free of all three
defect classes. -/
theorem claim_C3_witness : validateSpec repoSpec = Except.ok () :=
  (claim_C3_validation_characterization repoSpec).2 (by decide)

/-- The string code is injective. -/
theorem strKey_injective : Function.Injective strKey := by
  intro s t h
  unfold strKey at h
  have hchar : Function.Injective fun c : Char => c.toNat := by
    intro a b hab
    exact Char.ext (UInt32.ext hab)
  have hd : s.data = t.data := (List.map_injective_iff.mpr hchar) h
  cases s; cases t; exact congrArg String.mk hd

/-- The network-mode code is injective. -/
theorem networkCode_injective : Function.Injective NetworkMode.code := by
  intro a b h
  cases a <;> cases b <;> simp [NetworkMode.code] at h ⊢
  exact strKey_injective h

/-- The subnet-mode code is injective. -/
theorem subnetCode_injective : Function.Injective SubnetMode.code := by
  intro a b h
  cases a <;> cases b <;> simp [SubnetMode.code] at h ⊢

/-- The access-level code is injective. -/
theorem accessCode_injective : Function.Injective AccessLevel.code := by
  intro a b h
  cases a <;> cases b <;> simp [AccessLevel.code] at h ⊢

/-- The node-group field code is injective. -/
theorem ngCode_injective : Function.Injective NodeGroupSpec.code := by
  intro a b h
  cases a; cases b
  simp only [NodeGroupSpec.code, Prod.mk.injEq] at h
  obtain ⟨h1, h2, h3, h4, h5, h6⟩ := h
  simp only [NodeGroupSpec.mk.injEq]
  exact ⟨strKey_injective h1, strKey_injective h2, h3, h4, h5, subnetCode_injective h6⟩

/-- The add-on field code is injective. -/
theorem addOnCode_injective : Function.Injective AddOnSpec.code := by
  intro a b h
  cases a; cases b
  simp only [AddOnSpec.code, Prod.mk.injEq] at h
  obtain ⟨h1, h2, h3⟩ := h
  simp only [AddOnSpec.mk.injEq]
  exact ⟨strKey_injective h1, strKey_injective h2,
    (List.map_injective_iff.mpr strKey_injective) h3⟩

/-- The team field code is injective. -/
theorem teamCode_injective : Function.Injective TeamSpec.code := by
  intro a b h
  cases a; cases b
  simp only [TeamSpec.code, Prod.mk.injEq] at h
  obtain ⟨h1, h2⟩ := h
  simp only [TeamSpec.mk.injEq]
  refine ⟨strKey_injective h1, ?_⟩
  have hpair : Function.Injective
      fun p : AccessPair => (strKey p.principal, p.level.code) := by
    intro u v huv
    cases u; cases v
    simp only [Prod.mk.injEq] at huv
    simp only [AccessPair.mk.injEq]
    exact ⟨strKey_injective huv.1, accessCode_injective huv.2⟩
  exact (List.map_injective_iff.mpr hpair) h2

/-- The full field encoding of a ClusterSpec is injective. -/
theorem fields_injective : Function.Injective ClusterSpec.fields := by
  intro a b h
  cases a; cases b
  simp only [ClusterSpec.fields, Prod.mk.injEq] at h
  obtain ⟨h1, h2, h3, h4, h5, h6⟩ := h
  simp only [ClusterSpec.mk.injEq]
  exact ⟨strKey_injective h1, strKey_injective h2, networkCode_injective h3,
    (List.map_injective_iff.mpr ngCode_injective) h4,
    (List.map_injective_iff.mpr addOnCode_injective) h5,
    (List.map_injective_iff.mpr teamCode_injective) h6⟩

/-- C4: for valid ClusterSpecs the content hash is deterministic — specs with
identical content hash identically, and specs differing in any field hash
differently. -/
theorem claim_C4_hash_deterministic (s1 s2 : ClusterSpec)
    (h1 : validateSpec s1 = Except.ok ()) (h2 : validateSpec s2 = Except.ok ()) :
    hashSpec s1 = hashSpec s2 ↔ s1 = s2 := by
  constructor
  · intro h
    exact fields_injective (Encodable.encode_injective h)
  · intro h
    rw [h]

/-- A second valid spec differing from the repository's in one field
(desired node-group size 3 instead of 2). -/
def repoSpecAlt : ClusterSpec :=
  { repoSpec with nodeGroups := [{ repoMng1 with desiredSize := 3 }] }

/-- Witness for C4: the repository's spec and a one-field variant are both
valid and hash differently. -/
theorem claim_C4_witness : hashSpec repoSpec ≠ hashSpec repoSpecAlt :=
  fun h =>
    absurd ((claim_C4_hash_deterministic repoSpec repoSpecAlt rfl rfl).mp h)
      (by decide)


/-- C9 counterexample: with `vpcId` set to the empty string the field is
defined, yet the source's truthiness test `if (props?.vpcId)` fails and none
of the auxiliary EC2 instance, security group, or IAM role is created — so
creation is not equivalent to `props.vpcId` being defined. -/
theorem claim_C9_counterexample :
    (some "" : Option String).isSome = true ∧
    (cdkProjectsStack "CdkProjectsStack"
      (some ⟨none, none, some "", none⟩)).eksInstance = none ∧
    (cdkProjectsStack "CdkProjectsStack"
      (some ⟨none, none, some "", none⟩)).eksInstanceSg = none ∧
    (cdkProjectsStack "CdkProjectsStack"
      (some ⟨none, none, some "", none⟩)).eksInstanceRole = none := by
  decide

/-- C9 (amended): for every props value passed to `CdkProjectsStack`, the
auxiliary private EC2 instance, its security group, and its IAM role are
created if and only if `props.vpcId` is truthy (defined and non-empty); when
`props.vpcId` is undefined (including when `createNewVpc` is set) none of
the three resources is added. -/
theorem claim_C9_ec2_iff_vpcId_truthy (id : String) (props : Option EksStackProps) :
    ((cdkProjectsStack id props).eksInstance.isSome =
        truthyStr (props.bind (·.vpcId)) ∧
     (cdkProjectsStack id props).eksInstanceSg.isSome =
        truthyStr (props.bind (·.vpcId)) ∧
     (cdkProjectsStack id props).eksInstanceRole.isSome =
        truthyStr (props.bind (·.vpcId))) ∧
    (props.bind (·.vpcId) = none →
      (cdkProjectsStack id props).eksInstance = none ∧
      (cdkProjectsStack id props).eksInstanceSg = none ∧
      (cdkProjectsStack id props).eksInstanceRole = none) := by
  cases props with
  | none => simp [cdkProjectsStack, truthyStr]
  | some p =>
    cases hp : p.vpcId with
    | none => simp [cdkProjectsStack, truthyStr, hp] <;> split <;> rfl
    | some v =>
      by_cases hv : v = ""
      · subst hv
        simp [cdkProjectsStack, truthyStr, hp] <;> split <;> rfl
      · simp [cdkProjectsStack, truthyStr, hp, hv]

/-- Witness for C9: with no props at all, none of the three auxiliary
resources exists. -/
theorem claim_C9_witness :
    (cdkProjectsStack "CdkProjectsStack" none).eksInstance = none ∧
    (cdkProjectsStack "CdkProjectsStack" none).eksInstanceSg = none ∧
    (cdkProjectsStack "CdkProjectsStack" none).eksInstanceRole = none :=
  (claim_C9_ec2_iff_vpcId_truthy "CdkProjectsStack" none).2 rfl

/-- C10 counterexample: with `vpcId` set to the empty (falsy) string the
field is defined, yet the source registers no VPC resource provider and
creates no auxiliary EC2 instance — so neither equals definedness of
`props.vpcId`. -/
theorem claim_C10_counterexample :
    (some "" : Option String).isSome = true ∧
    (cdkProjectsStack "CdkProjectsStack"
      (some ⟨none, none, some "", none⟩)).vpcProviderRegistered = false ∧
    (cdkProjectsStack "CdkProjectsStack"
      (some ⟨none, none, some "", none⟩)).eksInstance.isSome = false := by
  decide

/-- C10 (amended): for every props value the cluster configuration is
identical — Kubernetes version 1.25, private-only endpoint access, the
single managed node group `mng1` (t3.medium, min=1, max=5, desired=2,
private-with-egress subnets), the same seven add-ons, and an empty team
list; `vpcId` and `createNewVpc` only determine whether the VPC resource
provider is registered and whether the extra EC2 instance exists, both of
which follow the truthiness of `props.vpcId`. -/
theorem claim_C10_cluster_config_frame (id : String) (props : Option EksStackProps) :
    (cdkProjectsStack id props).cluster =
      { version := "1.25"
        endpointAccess := "PRIVATE"
        managedNodeGroups :=
          [{ id := "mng1", instanceType := "t3.medium", minSize := 1, maxSize := 5,
             desiredSize := 2, subnetMode := SubnetMode.privateWithEgress }]
        addOns := ["CoreDns", "KubeProxy", "VpcCni", "MetricsServer",
                   "ClusterAutoScaler", "AwsLoadBalancerController",
                   "ContainerInsights"]
        teams := [] } ∧
    (cdkProjectsStack id props).vpcProviderRegistered =
      truthyStr (props.bind (·.vpcId)) ∧
    (cdkProjectsStack id props).eksInstance.isSome =
      truthyStr (props.bind (·.vpcId)) := by
  refine ⟨by cases props <;> rfl, ?_, ?_⟩
  · cases props with
    | none => rfl
    | some p =>
      cases hp : p.vpcId with
      | none => simp [cdkProjectsStack, truthyStr, hp] <;> split <;> rfl
      | some v =>
        by_cases hv : v = ""
        · subst hv
          simp [cdkProjectsStack, truthyStr, hp] <;> split <;> rfl
        · simp [cdkProjectsStack, truthyStr, hp, hv]
  · cases props with
    | none => rfl
    | some p =>
      cases hp : p.vpcId with
      | none => simp [cdkProjectsStack, truthyStr, hp] <;> split <;> rfl
      | some v =>
        by_cases hv : v = ""
        · subst hv
          simp [cdkProjectsStack, truthyStr, hp] <;> split <;> rfl
        · simp [cdkProjectsStack, truthyStr, hp, hv]
/-- Invariant of the emitted prefix of a topological sort: every in-plan
dependency of an emitted skeleton was emitted strictly earlier. -/
def TopoInv (allRes : List ResourceId) (acc : List Skel) : Prop :=
  ∀ j (hj : j < acc.length), ∀ d ∈ (acc.get ⟨j, hj⟩).2, d ∈ allRes →
    ∃ i, ∃ hi : i < acc.length, i < j ∧ (acc.get ⟨i, hi⟩).1 = d

/-- Removing one occurrence of a member is a permutation move. -/
theorem perm_cons_eraseFirst (c : Skel) (l : List Skel) (h : c ∈ l) :
    l.Perm (c :: eraseFirst l c) := by
  induction l with
  | nil => cases h
  | cons y ys ih =>
    by_cases hy : y = c
    · subst hy; simp [eraseFirst]
    · have hmem : c ∈ ys := by
        rcases List.mem_cons.mp h with h1 | h1
        · exact absurd h1.symm hy
        · exact h1
      simp only [eraseFirst, if_neg hy]
      exact ((ih hmem).cons y).trans (List.Perm.swap c y (eraseFirst ys c))

/-- The minimum-key selection returns one of its candidates. -/
theorem minSkel_mem (x : Skel) (l : List Skel) : minSkel x l ∈ x :: l := by
  induction l generalizing x with
  | nil => simp [minSkel]
  | cons y ys ih =>
    have hgoal : minSkel x (y :: ys) =
        minSkel (if keyLt y.1.key x.1.key then y else x) ys := rfl
    rw [hgoal]
    rcases List.mem_cons.mp (ih (if keyLt y.1.key x.1.key then y else x)) with h1 | h1
    · rw [h1]
      split <;> simp
    · simp [h1]

/-- Characterization of readiness. -/
theorem readyB_iff (emitted allRes : List ResourceId) (sk : Skel) :
    readyB emitted allRes sk = true ↔ ∀ d ∈ sk.2, d ∈ emitted ∨ d ∉ allRes := by
  simp [readyB, List.all_eq_true]

/-- Emitting a ready skeleton preserves the topological invariant. -/
theorem TopoInv.push (allRes : List ResourceId) (acc : List Skel) (c : Skel)
    (hinv : TopoInv allRes acc)
    (hready : readyB (acc.map (·.1)) allRes c = true) :
    TopoInv allRes (acc ++ [c]) := by
  intro j hj d hd hdall
  by_cases hjl : j < acc.length
  · rw [List.get_append j hjl] at hd
    obtain ⟨i, hi, hij, hieq⟩ := hinv j hjl d hd hdall
    refine ⟨i, by simp only [List.length_append, List.length_cons]; omega, hij, ?_⟩
    rw [List.get_append i hi]
    exact hieq
  · have hjeq : j = acc.length := by
      simp only [List.length_append, List.length_singleton] at hj; omega
    subst hjeq
    have hget : (acc ++ [c]).get ⟨acc.length, hj⟩ = c := by simp
    rw [hget] at hd
    rcases (readyB_iff _ _ _).mp hready d hd with hmem | hnot
    · obtain ⟨a, ha, haeq⟩ := List.mem_map.mp hmem
      obtain ⟨i, hieq⟩ := List.mem_iff_get.mp ha
      refine ⟨i.1, by simp only [List.length_append, List.length_singleton]; omega,
        by omega, ?_⟩
      rw [List.get_append i.1 i.isLt]
      simp only [Fin.eta, hieq, haeq]
    · exact absurd hdall hnot

/-- Soundness of the fuelled Kahn loop: a completed run extends the invariant
to the whole output and emits a permutation of its input. -/
theorem topoGo_sound (allRes : List ResourceId) :
    ∀ fuel remaining acc out,
      topoGo allRes fuel remaining acc = some out →
      TopoInv allRes acc →
      TopoInv allRes out ∧ (acc ++ remaining).Perm out := by
  intro fuel
  induction fuel with
  | zero =>
    intro remaining acc out h hinv
    simp only [topoGo] at h
    split at h
    case isTrue he =>
      obtain rfl : acc = out := Option.some.inj h
      exact ⟨hinv, by rw [he]; simp⟩
    case isFalse => exact absurd h (by simp)
  | succ n ih =>
    intro remaining acc out h hinv
    simp only [topoGo] at h
    split at h
    case isTrue he =>
      obtain rfl : acc = out := Option.some.inj h
      exact ⟨hinv, by rw [he]; simp⟩
    case isFalse hne =>
      split at h
      case h_1 heq => exact absurd h (by simp)
      case h_2 x xs heq =>
        have hcf : minSkel x xs ∈ remaining.filter (readyB (acc.map (·.1)) allRes) := by
          rw [heq]; exact minSkel_mem x xs
        have hcr : minSkel x xs ∈ remaining := (List.mem_filter.mp hcf).1
        have hcready := (List.mem_filter.mp hcf).2
        have hinv2 := TopoInv.push allRes acc (minSkel x xs) hinv hcready
        obtain ⟨hout, hperm⟩ := ih _ _ _ h hinv2
        refine ⟨hout, ?_⟩
        have h1 : (acc ++ remaining).Perm
            (acc ++ (minSkel x xs :: eraseFirst remaining (minSkel x xs))) :=
          List.Perm.append_left acc (perm_cons_eraseFirst (minSkel x xs) remaining hcr)
        have h2 : acc ++ (minSkel x xs :: eraseFirst remaining (minSkel x xs)) =
            (acc ++ [minSkel x xs]) ++ eraseFirst remaining (minSkel x xs) := by simp
        exact (h2 ▸ h1).trans hperm

/-- Soundness of topoSort: on success the output is a permutation of the
input satisfying the topological invariant. -/
theorem topoSort_sound (skels out : List Skel)
    (h : topoSort skels = some out) :
    TopoInv (skels.map (·.1)) out ∧ skels.Perm out := by
  unfold topoSort at h
  obtain ⟨hout, hperm⟩ :=
    topoGo_sound (skels.map (·.1)) skels.length skels [] out h
      (by intro j hj; simp at hj)
  exact ⟨hout, by simpa using hperm⟩

/-- Resource ids of the desired entities are pairwise distinct when
node-group, team, and add-on names are. -/
theorem desired_ids_nodup (s : ClusterSpec)
    (hng : (s.nodeGroups.map (·.id)).Nodup)
    (ht : (s.teams.map (·.name)).Nodup)
    (ha : (s.addOns.map (·.name)).Nodup) :
    ((desiredEntities s).map (·.1)).Nodup := by
  have hngm : (s.nodeGroups.map fun ng => ResourceId.nodeGroup ng.id).Nodup := by
    rw [show (s.nodeGroups.map fun ng => ResourceId.nodeGroup ng.id) =
        (s.nodeGroups.map (·.id)).map ResourceId.nodeGroup by
      rw [List.map_map]; rfl]
    exact hng.map fun x y hxy => by injection hxy
  have ham : (s.addOns.map fun a => ResourceId.addOn a.name).Nodup := by
    rw [show (s.addOns.map fun a => ResourceId.addOn a.name) =
        (s.addOns.map (·.name)).map ResourceId.addOn by rw [List.map_map]; rfl]
    exact ha.map fun x y hxy => by injection hxy
  have htm : (s.teams.map fun t => ResourceId.team t.name).Nodup := by
    rw [show (s.teams.map fun t => ResourceId.team t.name) =
        (s.teams.map (·.name)).map ResourceId.team by rw [List.map_map]; rfl]
    exact ht.map fun x y hxy => by injection hxy
  simp only [desiredEntities, List.map_append, List.map_map, List.map_cons,
    Function.comp]
  rw [List.nodup_append, List.nodup_append]
  refine ⟨⟨List.nodup_cons.mpr ⟨?_, hngm⟩, ham, ?_⟩, htm, ?_⟩
  · rintro hmem
    obtain ⟨ng, _, hc⟩ := List.mem_map.mp hmem
    exact ResourceId.noConfusion hc
  · rintro x hx hy
    rcases List.mem_cons.mp hx with h1 | h1
    · obtain ⟨a, _, hc⟩ := List.mem_map.mp hy
      rw [h1] at hc
      exact ResourceId.noConfusion hc
    · obtain ⟨ng, _, hc1⟩ := List.mem_map.mp h1
      obtain ⟨a, _, hc2⟩ := List.mem_map.mp hy
      rw [← hc1] at hc2
      exact ResourceId.noConfusion hc2
  · rintro x hx hy
    obtain ⟨t, _, hc2⟩ := List.mem_map.mp hy
    rcases List.mem_append.mp hx with h1 | h1
    · rcases List.mem_cons.mp h1 with h2 | h2
      · rw [h2] at hc2
        exact ResourceId.noConfusion hc2
      · obtain ⟨ng, _, hc1⟩ := List.mem_map.mp h2
        rw [← hc1] at hc2
        exact ResourceId.noConfusion hc2
    · obtain ⟨a, _, hc1⟩ := List.mem_map.mp h1
      rw [← hc1] at hc2
      exact ResourceId.noConfusion hc2

/-- Plan skeleton resource ids are pairwise distinct for validated specs with
distinct add-on names and a store keyed by resource id. -/
theorem planSkeletons_nodup (s : ClusterSpec) (st : StateStore)
    (hng : (s.nodeGroups.map (·.id)).Nodup)
    (ht : (s.teams.map (·.name)).Nodup)
    (ha : (s.addOns.map (·.name)).Nodup)
    (hr : (st.records.map (·.rid)).Nodup) :
    ((planSkeletons s st).map (·.1)).Nodup := by
  have hmap : (planSkeletons s st).map (·.1) =
      ((desiredEntities s).map (·.1)) ++
      ((st.records.filter fun rec =>
          ((desiredEntities s).find? fun e => e.1 = rec.rid) = none).map (·.rid)) := by
    simp only [planSkeletons, List.map_append, List.map_map]
    rfl
  rw [hmap]
  refine List.Nodup.append (desired_ids_nodup s hng ht ha) ?_ ?_
  · exact hr.sublist ((List.filter_sublist st.records).map (·.rid))
  · rintro x hx hy
    obtain ⟨rec, hrecf, hrid⟩ := List.mem_map.mp hy
    have hnone := of_decide_eq_true (List.mem_filter.mp hrecf).2
    obtain ⟨e, he, hex⟩ := List.mem_map.mp hx
    have := List.find?_eq_none.mp hnone e he
    simp only [decide_eq_true_eq] at this
    exact this (by rw [hex, hrid])

/-- Dependency relation of a skeleton list: `a` is an in-plan prerequisite of
`b`. -/
def skelDepRel (out : List Skel) (a b : ResourceId) : Prop :=
  ∃ sk ∈ out, sk.1 = b ∧ a ∈ sk.2 ∧ a ∈ out.map (·.1)

/-- Dependency relation of a ChangePlan: `a` is an in-plan prerequisite of
the step targeting `b`. -/
def planDepRel (p : ChangePlan) (a b : ResourceId) : Prop :=
  ∃ step ∈ p.steps, step.resource = b ∧ a ∈ step.deps ∧
    a ∈ p.steps.map (·.resource)

/-- In a topologically invariant output without duplicate resources, a
dependency edge implies the source is emitted strictly before the target. -/
theorem topo_pos_lt (allRes : List ResourceId) (out : List Skel)
    (hnd : (out.map (·.1)).Nodup) (hinv : TopoInv allRes out)
    (hsub : ∀ d, d ∈ out.map (·.1) → d ∈ allRes)
    (a b : ResourceId) (hr : skelDepRel out a b) :
    ∀ j (hj : j < out.length), (out.get ⟨j, hj⟩).1 = b →
    ∀ i (hi : i < out.length), (out.get ⟨i, hi⟩).1 = a → i < j := by
  obtain ⟨sk, hsk, hskb, hain, hamem⟩ := hr
  intro j hj hjb i hi hia
  obtain ⟨k, hkeq⟩ := List.mem_iff_get.mp hsk
  have hmaplen : (out.map (·.1)).length = out.length := List.length_map out _
  have hkj : k.1 = j := by
    have h1 : (out.map (·.1)).get ⟨k.1, by rw [hmaplen]; exact k.isLt⟩ =
        (out.map (·.1)).get ⟨j, by rw [hmaplen]; exact hj⟩ := by
      simp only [List.get_map]
      simp only [Fin.eta, hkeq, hskb, hjb]
    have h2 := hnd.get_inj_iff.mp h1
    exact congrArg Fin.val h2
  have hain2 : a ∈ (out.get ⟨j, hj⟩).2 := by
    have : out.get ⟨j, hj⟩ = sk := by
      rw [← hkeq]
      congr 1
      exact Fin.ext hkj.symm
    rw [this]
    exact hain
  obtain ⟨i2, hi2, hi2j, hi2a⟩ := hinv j hj a hain2 (hsub a hamem)
  have hii : i = i2 := by
    have h1 : (out.map (·.1)).get ⟨i, by rw [hmaplen]; exact hi⟩ =
        (out.map (·.1)).get ⟨i2, by rw [hmaplen]; exact hi2⟩ := by
      simp only [List.get_map]
      simp only [Fin.eta, hia, hi2a]
    have h2 := hnd.get_inj_iff.mp h1
    exact congrArg Fin.val h2
  omega

/-- A topologically invariant output without duplicate resources has an
acyclic dependency relation. -/
theorem topo_acyclic (allRes : List ResourceId) (out : List Skel)
    (hnd : (out.map (·.1)).Nodup) (hinv : TopoInv allRes out)
    (hsub : ∀ d, d ∈ out.map (·.1) → d ∈ allRes) :
    ∀ a, ¬ Relation.TransGen (skelDepRel out) a a := by
  have htarget : ∀ a b, Relation.TransGen (skelDepRel out) a b →
      ∃ j, ∃ hj : j < out.length, (out.get ⟨j, hj⟩).1 = b := by
    intro a b h
    induction h with
    | single hr =>
      obtain ⟨sk, hsk, hskb, _⟩ := hr
      obtain ⟨k, hkeq⟩ := List.mem_iff_get.mp hsk
      exact ⟨k.1, k.isLt, by simp only [Fin.eta, hkeq]; exact hskb⟩
    | tail h1 hr ih =>
      obtain ⟨sk, hsk, hskb, _⟩ := hr
      obtain ⟨k, hkeq⟩ := List.mem_iff_get.mp hsk
      exact ⟨k.1, k.isLt, by simp only [Fin.eta, hkeq]; exact hskb⟩
  have hlt : ∀ a b, Relation.TransGen (skelDepRel out) a b →
      ∀ j (hj : j < out.length), (out.get ⟨j, hj⟩).1 = b →
      ∀ i (hi : i < out.length), (out.get ⟨i, hi⟩).1 = a → i < j := by
    intro a b h
    induction h with
    | single hr => exact topo_pos_lt allRes out hnd hinv hsub _ _ hr
    | tail h1 hr ih =>
      intro j hj hjb i hi hia
      obtain ⟨k, hk, hkb⟩ := htarget _ _ h1
      exact lt_trans (ih k hk hkb i hi hia)
        (topo_pos_lt allRes out hnd hinv hsub _ _ hr j hj hjb k hk hkb)
  intro a ha
  obtain ⟨j, hj, hjb⟩ := htarget a a ha
  exact lt_irrefl j (hlt a a ha j hj hjb j hj hjb)

/-- A classified step targets its skeleton's resource. -/
theorem classify_resource (s : ClusterSpec) (st : StateStore) (sk : Skel) :
    (classify s st sk).resource = sk.1 := by
  unfold classify
  split <;> first | rfl | (split <;> first | rfl | (split <;> rfl))

/-- A classified step keeps its skeleton's dependency predecessors. -/
theorem classify_deps (s : ClusterSpec) (st : StateStore) (sk : Skel) :
    (classify s st sk).deps = sk.2 := by
  unfold classify
  split <;> first | rfl | (split <;> first | rfl | (split <;> rfl))

/-- Elimination of a successful planning run: the plan is the classification
of a successful topological sort of the spec's skeletons. -/
theorem planSpec_ok_elim (m : SpecModel) (st : StateStore) (ad : Adapter)
    (force : Bool) (p : ChangePlan) (tr : List ProviderCall)
    (h : planSpec m st ad force = (Except.ok p, tr)) :
    ∃ sorted, topoSort (planSkeletons m.spec st) = some sorted ∧
      p.steps = sorted.map (classify m.spec st) := by
  simp only [planSpec] at h
  cases htopo : topoSort (planSkeletons m.spec st) with
  | none =>
    rw [htopo] at h
    simp at h
  | some sorted =>
    rw [htopo] at h
    replace h :
        (if (decide (force = false) && decide (driftFreeB st ad = false)) = true then
          (Except.error OrchError.driftDetected,
            st.records.map fun rec => ProviderCall.observe rec.rid)
        else
          (Except.ok (ChangePlan.mk (sorted.map (classify m.spec st))),
            st.records.map fun rec => ProviderCall.observe rec.rid)) =
        (Except.ok p, tr) := h
    refine ⟨sorted, rfl, ?_⟩
    by_cases hdr : (decide (force = false) && decide (driftFreeB st ad = false)) = true
    · rw [if_pos hdr] at h
      exact absurd (congrArg Prod.fst h) (by simp)
    · rw [if_neg hdr] at h
      have h1 : Except.ok (ChangePlan.mk (sorted.map (classify m.spec st))) =
          Except.ok p := congrArg Prod.fst h
      rw [← Except.ok.inj h1]

/-- C5: every ChangePlan produced by the Plan Engine has an acyclic
dependency relation, and its step order is topological — every in-plan
dependency of a step is targeted by an earlier step.  Ties are resolved by
the deterministic ascending-resource-id selection of `topoGo`, so the step
order is a function of the desired spec and observed state alone. -/
theorem claim_C5_plan_acyclic_topological (m : SpecModel) (st : StateStore)
    (ad : Adapter) (force : Bool) (p : ChangePlan) (tr : List ProviderCall)
    (ha : (m.spec.addOns.map (·.name)).Nodup)
    (hrec : (st.records.map (·.rid)).Nodup)
    (h : planSpec m st ad force = (Except.ok p, tr)) :
    (∀ a, ¬ Relation.TransGen (planDepRel p) a a) ∧
    (∀ j (hj : j < p.steps.length), ∀ d ∈ (p.steps.get ⟨j, hj⟩).deps,
      d ∈ p.steps.map (·.resource) →
      ∃ i, ∃ hi : i < p.steps.length, i < j ∧ (p.steps.get ⟨i, hi⟩).resource = d) := by
  obtain ⟨sorted, htopo, hsteps⟩ := planSpec_ok_elim m st ad force p tr h
  obtain ⟨hinv, hperm⟩ := topoSort_sound _ _ htopo
  have hok := (validateSpec_ok_iff m.spec).mp m.valid
  have hng := ((uniqueIdsOkB_iff m.spec).mp hok.2.2).1
  have htm := ((uniqueIdsOkB_iff m.spec).mp hok.2.2).2
  have hskelnd := planSkeletons_nodup m.spec st hng htm ha hrec
  have hndout : (sorted.map (·.1)).Nodup := (hperm.map (·.1)).nodup_iff.mp hskelnd
  have hcomp : ((fun st => st.resource) ∘ classify m.spec st) = (·.1) :=
    funext (classify_resource m.spec st)
  have hres : p.steps.map (·.resource) = sorted.map (·.1) := by
    rw [hsteps, List.map_map, hcomp]
  have hsub : ∀ d, d ∈ sorted.map (·.1) → d ∈ (planSkeletons m.spec st).map (·.1) :=
    fun d hd => ((hperm.map (·.1)).mem_iff).mpr hd
  have hacyc := topo_acyclic ((planSkeletons m.spec st).map (·.1)) sorted hndout hinv hsub
  have hrel : ∀ a b, planDepRel p a b → skelDepRel sorted a b := by
    rintro a b ⟨step, hstep, hresb, hain, hamem⟩
    rw [hsteps] at hstep
    obtain ⟨sk, hsk, hskc⟩ := List.mem_map.mp hstep
    refine ⟨sk, hsk, ?_, ?_, ?_⟩
    · rw [← hresb, ← hskc, classify_resource]
    · rw [← hskc, classify_deps] at hain
      exact hain
    · rw [← hres]
      exact hamem
  constructor
  · intro a hcyc
    exact hacyc a (Relation.TransGen.mono (hrel) hcyc)
  · intro j hj d hd hdm
    have hj2 : j < sorted.length := by
      rw [hsteps, List.length_map] at hj
      exact hj
    have hget : p.steps.get ⟨j, hj⟩ = classify m.spec st (sorted.get ⟨j, hj2⟩) := by
      rw [List.get_of_eq hsteps]
      simp [List.get_map]
    rw [hget, classify_deps] at hd
    have hdall : d ∈ (planSkeletons m.spec st).map (·.1) := by
      rw [hres] at hdm
      exact hsub d hdm
    obtain ⟨i, hi, hij, hia⟩ := hinv j hj2 d hd hdall
    have hpi : i < p.steps.length := by
      rw [hsteps, List.length_map]
      exact hi
    refine ⟨i, hpi, hij, ?_⟩
    have hgeti : p.steps.get ⟨i, hpi⟩ = classify m.spec st (sorted.get ⟨i, hi⟩) := by
      rw [List.get_of_eq hsteps]
      simp [List.get_map]
    rw [hgeti, classify_resource]
    exact hia

/-- The plan computed for the repository's spec, used as the concrete C5
instance. -/
def c5Plan : ChangePlan :=
  match (planSpec repoModel store0 adapterAllOk false).1 with
  | Except.ok p => p
  | Except.error _ => ⟨[]⟩

/-- Witness for C5: the concrete repository plan has no dependency cycle
through the cluster resource. -/
theorem claim_C5_witness :
    ¬ Relation.TransGen (planDepRel c5Plan) ResourceId.cluster ResourceId.cluster :=
  (claim_C5_plan_acyclic_topological repoModel store0 adapterAllOk false c5Plan []
    (by decide) (by decide) rfl).1 ResourceId.cluster

/-- Declared add-on dependency relation of a spec: some add-on named `y`
declares `x` as a prerequisite. -/
def addOnDecl (s : ClusterSpec) (x y : String) : Prop :=
  ∃ a ∈ s.addOns, a.name = y ∧ x ∈ a.dependsOn

/-- The skeleton of a declared add-on is part of the plan skeletons. -/
theorem addOn_skel_mem (s : ClusterSpec) (st : StateStore) (a : AddOnSpec)
    (hmem : a ∈ s.addOns) :
    ((ResourceId.addOn a.name,
      ResourceId.cluster :: a.dependsOn.map ResourceId.addOn) : Skel) ∈
      planSkeletons s st := by
  refine List.mem_append_left _ (List.mem_map.mpr
    ⟨(ResourceId.addOn a.name, EntityAttrs.addOn a.version a.dependsOn,
      ResourceId.cluster :: a.dependsOn.map ResourceId.addOn), ?_, rfl⟩)
  unfold desiredEntities
  apply List.mem_append_left
  apply List.mem_append_right
  exact List.mem_map.mpr ⟨a, hmem, rfl⟩

/-- C6: when the add-on dependency declarations of a (validated) desired spec
contain a cycle, planning fails with `PlanConflict` and the Provider Adapter
trace is empty — no provider call precedes the rejection. -/
theorem claim_C6_cycle_planconflict (m : SpecModel) (st : StateStore)
    (ad : Adapter) (force : Bool)
    (ha : (m.spec.addOns.map (·.name)).Nodup)
    (hrec : (st.records.map (·.rid)).Nodup)
    (a : String) (hcyc : Relation.TransGen (addOnDecl m.spec) a a) :
    planSpec m st ad force = (Except.error OrchError.planConflict, []) := by
  cases htopo : topoSort (planSkeletons m.spec st) with
  | some sorted =>
    exfalso
    obtain ⟨hinv, hperm⟩ := topoSort_sound _ _ htopo
    have hok := (validateSpec_ok_iff m.spec).mp m.valid
    have hng := ((uniqueIdsOkB_iff m.spec).mp hok.2.2).1
    have htm := ((uniqueIdsOkB_iff m.spec).mp hok.2.2).2
    have hskelnd := planSkeletons_nodup m.spec st hng htm ha hrec
    have hndout : (sorted.map (·.1)).Nodup := (hperm.map (·.1)).nodup_iff.mp hskelnd
    have hsub : ∀ d, d ∈ sorted.map (·.1) →
        d ∈ (planSkeletons m.spec st).map (·.1) :=
      fun d hd => ((hperm.map (·.1)).mem_iff).mpr hd
    have hacyc := topo_acyclic ((planSkeletons m.spec st).map (·.1)) sorted
      hndout hinv hsub
    have hmemres : ∀ x, x ∈ m.spec.addOns.map (·.name) →
        ResourceId.addOn x ∈ sorted.map (·.1) := by
      intro x hx
      obtain ⟨ax, hax, haxn⟩ := List.mem_map.mp hx
      have hmem := (hperm.mem_iff).mp (addOn_skel_mem m.spec st ax hax)
      exact List.mem_map.mpr ⟨_, hmem, by simp [haxn]⟩
    have hdecl_target : ∀ x y, addOnDecl m.spec x y →
        y ∈ m.spec.addOns.map (·.name) := by
      rintro x y ⟨b, hb, hbn, _⟩
      exact List.mem_map.mpr ⟨b, hb, hbn⟩
    have hstep : ∀ x y, addOnDecl m.spec x y → x ∈ m.spec.addOns.map (·.name) →
        skelDepRel sorted (ResourceId.addOn x) (ResourceId.addOn y) := by
      rintro x y ⟨b, hb, hbn, hxdep⟩ hx
      refine ⟨(ResourceId.addOn b.name,
        ResourceId.cluster :: b.dependsOn.map ResourceId.addOn),
        (hperm.mem_iff).mp (addOn_skel_mem m.spec st b hb), by simp [hbn], ?_, ?_⟩
      · exact List.mem_cons_of_mem _ (List.mem_map.mpr ⟨x, hxdep, rfl⟩)
      · exact hmemres x hx
    have hlift : ∀ b, Relation.TransGen (addOnDecl m.spec) a b →
        b ∈ m.spec.addOns.map (·.name) ∧
        (a ∈ m.spec.addOns.map (·.name) →
          Relation.TransGen (skelDepRel sorted)
            (ResourceId.addOn a) (ResourceId.addOn b)) := by
      intro b h
      induction h with
      | single hr =>
        exact ⟨hdecl_target _ _ hr,
          fun hax => Relation.TransGen.single (hstep _ _ hr hax)⟩
      | tail h1 hr ih =>
        exact ⟨hdecl_target _ _ hr,
          fun hax => Relation.TransGen.tail (ih.2 hax) (hstep _ _ hr ih.1)⟩
    obtain ⟨hadecl, hf⟩ := hlift a hcyc
    exact hacyc (ResourceId.addOn a) (hf hadecl)
  | none =>
    simp only [planSpec]
    rw [htopo]

/-- A validated spec with two add-ons declaring each other as prerequisite. -/
def cycSpec : ClusterSpec :=
  { accountId := "000000000000"
    region := "us-east-1"
    network := NetworkMode.createNew
    nodeGroups := []
    addOns := [{ name := "A", version := "", dependsOn := ["B"] },
               { name := "B", version := "", dependsOn := ["A"] }]
    teams := [] }

/-- The cyclic spec passes Spec Model validation (cycles are not a validation
defect). -/
def cycModel : SpecModel :=
  ⟨cycSpec, rfl⟩

/-- Witness for C6: the two mutually dependent add-ons make planning fail
with `PlanConflict` and an empty provider-call trace. -/
theorem claim_C6_witness :
    planSpec cycModel store0 adapterAllOk false =
      (Except.error OrchError.planConflict, []) :=
  claim_C6_cycle_planconflict cycModel store0 adapterAllOk false
    (by decide) (by decide) "A"
    (Relation.TransGen.tail
      (Relation.TransGen.single
        (show addOnDecl cycModel.spec "A" "B" by unfold addOnDecl; decide))
      (show addOnDecl cycModel.spec "B" "A" by unfold addOnDecl; decide))

/-- Event `e` marks resource `r` entering in-progress or a provider call for
it. -/
def triggerOf (e : Event) (r : ResourceId) : Prop :=
  e = Event.change r StepStatus.inProgress ∨ e = Event.call r

/-- Update of the succeeded-resource set by one event. -/
def eventSucc (succ : List ResourceId) (e : Event) : List ResourceId :=
  match e with
  | Event.change r StepStatus.succeeded => r :: succ
  | _ => succ

/-- Accumulated succeeded-resource set of an event trace. -/
def succAccum (succ : List ResourceId) (evs : List Event) : List ResourceId :=
  evs.foldl eventSucc succ

/-- Temporal correctness of an event trace: whenever a step's resource enters
in-progress or receives a provider call, every dependency predecessor of its
step is already in the succeeded set. -/
def TraceOk (steps : List ChangeStep) : List Event → List ResourceId → Prop
  | [], _ => True
  | e :: rest, succ =>
    (∀ r, triggerOf e r → ∀ step ∈ steps, step.resource = r →
      ∀ d ∈ step.deps, d ∈ succ) ∧
    TraceOk steps rest (eventSucc succ e)

/-- Events only ever grow the succeeded set. -/
theorem eventSucc_mono (succ : List ResourceId) (e : Event) (d : ResourceId)
    (h : d ∈ succ) : d ∈ eventSucc succ e := by
  unfold eventSucc
  rcases e with ⟨r, stt⟩ | r
  · cases stt <;> simp [h]
  · exact h

/-- A trace none of whose triggers has an unsatisfied dependency is
temporally correct. -/
theorem traceOk_of_forall (steps : List ChangeStep) :
    ∀ (l : List Event) (succ : List ResourceId),
      (∀ e ∈ l, ∀ r, triggerOf e r → ∀ step ∈ steps, step.resource = r →
        ∀ d ∈ step.deps, d ∈ succ) →
      TraceOk steps l succ := by
  intro l
  induction l with
  | nil => intro succ _; trivial
  | cons e rest ih =>
    intro succ h
    refine ⟨fun r htr => h e (List.mem_cons_self e rest) r htr,
      ih (eventSucc succ e) ?_⟩
    intro e2 he2 r htr step hstep hres d hd
    exact eventSucc_mono succ e d (h e2 (List.mem_cons_of_mem e he2) r htr step hstep hres d hd)

/-- Temporal correctness splits along trace concatenation. -/
theorem traceOk_append (steps : List ChangeStep) (evs1 evs2 : List Event) :
    ∀ succ, TraceOk steps (evs1 ++ evs2) succ ↔
      TraceOk steps evs1 succ ∧ TraceOk steps evs2 (succAccum succ evs1) := by
  induction evs1 with
  | nil =>
    intro succ
    simp [TraceOk, succAccum]
  | cons e rest ih =>
    intro succ
    simp only [List.cons_append, TraceOk, succAccum, List.foldl_cons, List.append_eq]
    rw [ih (eventSucc succ e)]
    unfold succAccum
    exact and_assoc.symm

/-- Splitting a temporally correct trace at a trigger: every dependency of
the triggered step either succeeded before the trace or inside its prefix. -/
theorem traceOk_split (steps : List ChangeStep) :
    ∀ (pre : List Event) (e : Event) (post : List Event) (succ : List ResourceId),
      TraceOk steps (pre ++ e :: post) succ →
      ∀ r, triggerOf e r → ∀ step ∈ steps, step.resource = r →
      ∀ d ∈ step.deps, d ∈ succ ∨ Event.change d StepStatus.succeeded ∈ pre := by
  intro pre
  induction pre with
  | nil =>
    intro e post succ h r htr step hstep hres d hd
    exact Or.inl (h.1 r htr step hstep hres d hd)
  | cons x rest ih =>
    intro e post succ h r htr step hstep hres d hd
    rcases ih e post (eventSucc succ x) h.2 r htr step hstep hres d hd with hin | hin
    · unfold eventSucc at hin
      rcases x with ⟨rx, stx⟩ | rx
      · cases stx with
        | succeeded =>
          rcases List.mem_cons.mp hin with h1 | h1
          · exact Or.inr (by rw [h1]; exact List.mem_cons_self _ _)
          · exact Or.inl h1
        | pending => exact Or.inl hin
        | inProgress => exact Or.inl hin
        | failed => exact Or.inl hin
        | skipped => exact Or.inl hin
      · exact Or.inl hin
    · exact Or.inr (List.mem_cons_of_mem x hin)

/-- Status lookup after recording one more step. -/
theorem statusOf_cons (r : ResourceId) (s : StepStatus)
    (report : List (ResourceId × StepStatus)) (d : ResourceId) :
    statusOf ((r, s) :: report) d =
      if d = r then some s else statusOf report d := by
  unfold statusOf
  by_cases hd : d = r
  · subst hd
    simp [List.find?]
  · rw [if_neg hd]
    have : ((r, s).1 = d) = False := by
      simp only [eq_iff_iff, iff_false]
      exact fun hc => hd hc.symm
    simp [List.find?, this]

/-- All events of the bounded retry loop are provider calls for its
resource. -/
theorem tryApply_calls (ad : Adapter) (r : ResourceId) (act : StepAction) :
    ∀ n i, ∀ e ∈ (tryApply ad r act n i).2, e = Event.call r := by
  intro n
  induction n with
  | zero => intro i e he; simp [tryApply] at he
  | succ k ih =>
    intro i e he
    unfold tryApply at he
    rcases hres : ad.applyCall r act i with _ | _ | _ <;> rw [hres] at he
    · simpa using he
    · rcases List.mem_cons.mp (by simpa using he) with h1 | h1
      · exact h1
      · exact ih (i + 1) e h1
    · simpa using he

/-- Call-only events leave the succeeded set unchanged. -/
theorem succAccum_calls (succ : List ResourceId) :
    ∀ (l : List Event), (∀ e ∈ l, ∃ r, e = Event.call r) →
      succAccum succ l = succ := by
  intro l
  induction l generalizing succ with
  | nil => intro _; rfl
  | cons e rest ih =>
    intro h
    obtain ⟨r, hr⟩ := h e (List.mem_cons_self e rest)
    unfold succAccum
    rw [List.foldl_cons, hr]
    exact ih (eventSucc succ (Event.call r)) fun e2 he2 => h e2 (List.mem_cons_of_mem e he2)

/-- Consistency of the report with the trace: a resource is in the
accumulated succeeded set exactly when its reported status is succeeded. -/
def ReportSucc (es : ExecState) : Prop :=
  ∀ d, d ∈ succAccum [] es.events ↔ statusOf es.report d = some StepStatus.succeeded

/-- Branch lemma: a step with an unsatisfied predecessor is skipped. -/
theorem processStep_skip (ad : Adapter) (cap : Nat) (es : ExecState)
    (step : ChangeStep) (h : depsOkB es.report step.deps = false) :
    processStep ad cap es step =
      { es with
        report := (step.resource, StepStatus.skipped) :: es.report
        events := es.events ++ [Event.change step.resource StepStatus.skipped] } := by
  unfold processStep
  rw [if_pos h]

/-- Branch lemma: a noop with satisfied predecessors succeeds without any
provider call or store write. -/
theorem processStep_noop (ad : Adapter) (cap : Nat) (es : ExecState)
    (step : ChangeStep) (h1 : depsOkB es.report step.deps = true)
    (h2 : step.action = StepAction.noop) :
    processStep ad cap es step =
      { es with
        report := (step.resource, StepStatus.succeeded) :: es.report
        events := es.events ++ [Event.change step.resource StepStatus.succeeded] } := by
  unfold processStep
  rw [if_neg (by simp [h1]), if_pos h2]

/-- Branch lemma: an executed step enters in-progress, issues its calls, and
ends succeeded (writing the store) or failed. -/
theorem processStep_run (ad : Adapter) (cap : Nat) (es : ExecState)
    (step : ChangeStep) (h1 : depsOkB es.report step.deps = true)
    (h2 : ¬ step.action = StepAction.noop) :
    processStep ad cap es step =
      (if (tryApply ad step.resource step.action cap 0).1 then
        { report := (step.resource, StepStatus.succeeded) :: es.report
          store :=
            match step.attrs with
            | some a =>
              if step.action = StepAction.delete then es.store.remove step.resource
              else es.store.save ⟨step.resource, "applied", a⟩
            | none => es.store.remove step.resource
          events := (es.events ++
            Event.change step.resource StepStatus.inProgress ::
              (tryApply ad step.resource step.action cap 0).2) ++
            [Event.change step.resource StepStatus.succeeded] }
      else
        { es with
          report := (step.resource, StepStatus.failed) :: es.report
          events := (es.events ++
            Event.change step.resource StepStatus.inProgress ::
              (tryApply ad step.resource step.action cap 0).2) ++
            [Event.change step.resource StepStatus.failed] }) := by
  unfold processStep
  rw [if_neg (by simp [h1]), if_neg h2]

/-- Folding the succeeded set splits over concatenation. -/
theorem succAccum_append (s : List ResourceId) (l1 l2 : List Event) :
    succAccum s (l1 ++ l2) = succAccum (succAccum s l1) l2 :=
  List.foldl_append eventSucc s l1 l2

/-- Status-change events other than in-progress are not triggers. -/
theorem not_trigger_change (r r' : ResourceId) (stt : StepStatus)
    (h : stt ≠ StepStatus.inProgress) : ¬ triggerOf (Event.change r stt) r' := by
  rintro (hc | hc)
  · injection hc with h1 h2
    exact h h2
  · exact Event.noConfusion hc

/-- Report-consistency step: prepending one fresh terminal status keeps the
succeeded set and the report in agreement. -/
theorem succ_iff_cons (es : ExecState) (r : ResourceId) (stt : StepStatus)
    (S2 : List ResourceId)
    (hrep : ReportSucc es)
    (hfresh : r ∉ succAccum [] es.events)
    (hS2 : S2 = if stt = StepStatus.succeeded then r :: succAccum [] es.events
           else succAccum [] es.events) :
    ∀ d, d ∈ S2 ↔
      statusOf ((r, stt) :: es.report) d = some StepStatus.succeeded := by
  intro d
  rw [statusOf_cons]
  by_cases hd : d = r
  · subst hd
    rw [if_pos rfl, hS2]
    by_cases hs : stt = StepStatus.succeeded
    · subst hs; simp
    · rw [if_neg hs]
      constructor
      · intro hc; exact absurd hc hfresh
      · intro hc; exact absurd (Option.some.inj hc).symm (fun hx => hs hx.symm)
  · rw [if_neg hd, hS2]
    by_cases hs : stt = StepStatus.succeeded
    · subst hs
      rw [if_pos rfl, List.mem_cons]
      simp only [hd, false_or]
      exact hrep d
    · rw [if_neg hs]
      exact hrep d

/-- Processing one fresh step preserves trace correctness and report
consistency, and touches no other resource's status. -/
theorem processStep_preserves (ad : Adapter) (cap : Nat)
    (allSteps : List ChangeStep)
    (hnd : (allSteps.map (·.resource)).Nodup)
    (es : ExecState) (t : ChangeStep)
    (htmem : t ∈ allSteps)
    (hfresh : statusOf es.report t.resource = none)
    (hrep : ReportSucc es) (htr : TraceOk allSteps es.events []) :
    TraceOk allSteps (processStep ad cap es t).events [] ∧
    ReportSucc (processStep ad cap es t) ∧
    (∀ d, d ≠ t.resource →
      statusOf (processStep ad cap es t).report d = statusOf es.report d) := by
  have huniq : ∀ step ∈ allSteps, step.resource = t.resource → step = t := by
    intro step hstep hres
    exact List.inj_on_of_nodup_map hnd hstep htmem hres
  have hSr : t.resource ∉ succAccum [] es.events := by
    intro hc
    rw [(hrep t.resource).mp hc] at hfresh
    exact Option.noConfusion hfresh
  by_cases hdeps : depsOkB es.report t.deps = false
  · rw [processStep_skip ad cap es t hdeps]
    refine ⟨?_, ?_, ?_⟩
    · show TraceOk allSteps
        (es.events ++ [Event.change t.resource StepStatus.skipped]) []
      rw [traceOk_append]
      exact ⟨htr,
        ⟨fun r htr' => absurd htr'
          (not_trigger_change _ _ _ fun hx => StepStatus.noConfusion hx), trivial⟩⟩
    · intro d
      show d ∈ succAccum []
          (es.events ++ [Event.change t.resource StepStatus.skipped]) ↔
        statusOf ((t.resource, StepStatus.skipped) :: es.report) d =
          some StepStatus.succeeded
      rw [succAccum_append]
      exact succ_iff_cons es t.resource StepStatus.skipped _ hrep hSr rfl d
    · intro d hd
      show statusOf ((t.resource, StepStatus.skipped) :: es.report) d =
        statusOf es.report d
      rw [statusOf_cons, if_neg hd]
  · have hdeps' : depsOkB es.report t.deps = true := by
      cases h : depsOkB es.report t.deps
      · exact absurd h hdeps
      · rfl
    have hdepsS : ∀ d ∈ t.deps, d ∈ succAccum [] es.events := by
      intro d hd
      have := List.all_eq_true.mp hdeps' d hd
      simp only [decide_eq_true_eq] at this
      exact (hrep d).mpr this
    by_cases hnoop : t.action = StepAction.noop
    · rw [processStep_noop ad cap es t hdeps' hnoop]
      refine ⟨?_, ?_, ?_⟩
      · show TraceOk allSteps
          (es.events ++ [Event.change t.resource StepStatus.succeeded]) []
        rw [traceOk_append]
        exact ⟨htr,
          ⟨fun r htr' => absurd htr'
            (not_trigger_change _ _ _ fun hx => StepStatus.noConfusion hx), trivial⟩⟩
      · intro d
        show d ∈ succAccum []
            (es.events ++ [Event.change t.resource StepStatus.succeeded]) ↔
          statusOf ((t.resource, StepStatus.succeeded) :: es.report) d =
            some StepStatus.succeeded
        rw [succAccum_append]
        exact succ_iff_cons es t.resource StepStatus.succeeded _ hrep hSr rfl d
      · intro d hd
        show statusOf ((t.resource, StepStatus.succeeded) :: es.report) d =
          statusOf es.report d
        rw [statusOf_cons, if_neg hd]
    · rw [processStep_run ad cap es t hdeps' hnoop]
      have hcalls := tryApply_calls ad t.resource t.action cap 0
      have hblock : TraceOk allSteps
          (Event.change t.resource StepStatus.inProgress ::
            (tryApply ad t.resource t.action cap 0).2)
          (succAccum [] es.events) := by
        apply traceOk_of_forall
        intro e he r htr' step hstep hres d hd
        have hrt : r = t.resource := by
          rcases List.mem_cons.mp he with h1 | h1
          · rcases htr' with h | h
            · rw [h1] at h
              injection h with h2 h3
              exact h2.symm
            · rw [h1] at h
              exact Event.noConfusion h
          · have hce := hcalls e h1
            rcases htr' with h | h
            · rw [hce] at h
              exact Event.noConfusion h
            · rw [hce] at h
              exact (Event.call.inj h).symm
        subst hrt
        have heq := huniq step hstep hres
        subst heq
        exact hdepsS d hd
      have hsuccblock : succAccum (succAccum [] es.events)
          (Event.change t.resource StepStatus.inProgress ::
            (tryApply ad t.resource t.action cap 0).2) =
          succAccum [] es.events := by
        unfold succAccum
        rw [List.foldl_cons]
        exact succAccum_calls (succAccum [] es.events) _
          fun e he => ⟨t.resource, hcalls e he⟩
      by_cases hok : (tryApply ad t.resource t.action cap 0).1 = true
      · rw [if_pos hok]
        refine ⟨?_, ?_, ?_⟩
        · show TraceOk allSteps
            ((es.events ++
              Event.change t.resource StepStatus.inProgress ::
                (tryApply ad t.resource t.action cap 0).2) ++
              [Event.change t.resource StepStatus.succeeded]) []
          rw [traceOk_append, traceOk_append]
          refine ⟨⟨htr, hblock⟩, ?_⟩
          rw [succAccum_append, hsuccblock]
          exact ⟨fun r htr' => absurd htr'
            (not_trigger_change _ _ _ fun hx => StepStatus.noConfusion hx), trivial⟩
        · intro d
          show d ∈ succAccum []
              ((es.events ++
                Event.change t.resource StepStatus.inProgress ::
                  (tryApply ad t.resource t.action cap 0).2) ++
                [Event.change t.resource StepStatus.succeeded]) ↔
            statusOf ((t.resource, StepStatus.succeeded) :: es.report) d =
              some StepStatus.succeeded
          rw [succAccum_append, succAccum_append, hsuccblock]
          exact succ_iff_cons es t.resource StepStatus.succeeded _ hrep hSr rfl d
        · intro d hd
          show statusOf ((t.resource, StepStatus.succeeded) :: es.report) d =
            statusOf es.report d
          rw [statusOf_cons, if_neg hd]
      · rw [if_neg hok]
        refine ⟨?_, ?_, ?_⟩
        · show TraceOk allSteps
            ((es.events ++
              Event.change t.resource StepStatus.inProgress ::
                (tryApply ad t.resource t.action cap 0).2) ++
              [Event.change t.resource StepStatus.failed]) []
          rw [traceOk_append, traceOk_append]
          refine ⟨⟨htr, hblock⟩, ?_⟩
          rw [succAccum_append, hsuccblock]
          exact ⟨fun r htr' => absurd htr'
            (not_trigger_change _ _ _ fun hx => StepStatus.noConfusion hx), trivial⟩
        · intro d
          show d ∈ succAccum []
              ((es.events ++
                Event.change t.resource StepStatus.inProgress ::
                  (tryApply ad t.resource t.action cap 0).2) ++
                [Event.change t.resource StepStatus.failed]) ↔
            statusOf ((t.resource, StepStatus.failed) :: es.report) d =
              some StepStatus.succeeded
          rw [succAccum_append, succAccum_append, hsuccblock]
          exact succ_iff_cons es t.resource StepStatus.failed _ hrep hSr rfl d
        · intro d hd
          show statusOf ((t.resource, StepStatus.failed) :: es.report) d =
            statusOf es.report d
          rw [statusOf_cons, if_neg hd]

/-- Sequential execution of fresh steps preserves trace correctness. -/
theorem execSteps_traceOk (ad : Adapter) (cap : Nat) (allSteps : List ChangeStep)
    (hnd : (allSteps.map (·.resource)).Nodup) :
    ∀ (remaining : List ChangeStep) (es : ExecState),
      (∀ t ∈ remaining, t ∈ allSteps) →
      ((remaining.map (·.resource)).Nodup) →
      (∀ t ∈ remaining, statusOf es.report t.resource = none) →
      ReportSucc es →
      TraceOk allSteps es.events [] →
      TraceOk allSteps (execSteps ad cap remaining es).events [] := by
  intro remaining
  induction remaining with
  | nil => intro es _ _ _ _ htr; exact htr
  | cons t rest ih =>
    intro es hsub hndr hfresh hrep htr
    rw [List.map_cons] at hndr
    obtain ⟨htr2, hrep2, hother⟩ := processStep_preserves ad cap allSteps hnd es t
      (hsub t (List.mem_cons_self t rest))
      (hfresh t (List.mem_cons_self t rest)) hrep htr
    show TraceOk allSteps (execSteps ad cap rest (processStep ad cap es t)).events []
    apply ih
    · exact fun u hu => hsub u (List.mem_cons_of_mem t hu)
    · exact (List.nodup_cons.mp hndr).2
    · intro u hu
      rw [hother u.resource ?_]
      · exact hfresh u (List.mem_cons_of_mem t hu)
      · intro hcontra
        exact (List.nodup_cons.mp hndr).1
          (hcontra ▸ List.mem_map.mpr ⟨u, hu, rfl⟩)
    · exact hrep2
    · exact htr2

/-- C7: during execution of a ChangePlan (one step per resource, as the Plan
Engine guarantees), whenever a step's resource enters in-progress — or any
provider call for it is issued — every one of its dependency predecessors has
already reached succeeded earlier in the trace. -/
theorem claim_C7_deps_succeed_first (p : ChangePlan) (st : StateStore)
    (ad : Adapter) (cap : Nat)
    (hnd : (p.steps.map (·.resource)).Nodup)
    (pre : List Event) (e : Event) (post : List Event) (r : ResourceId)
    (hsplit : (execPlan p st ad cap).events = pre ++ e :: post)
    (he : e = Event.change r StepStatus.inProgress ∨ e = Event.call r) :
    ∀ step ∈ p.steps, step.resource = r → ∀ d ∈ step.deps,
      Event.change d StepStatus.succeeded ∈ pre := by
  have htrace : TraceOk p.steps (execPlan p st ad cap).events [] := by
    apply execSteps_traceOk ad cap p.steps hnd p.steps ⟨[], st, []⟩
    · exact fun t ht => ht
    · exact hnd
    · intro t ht; rfl
    · intro d
      constructor
      · intro h; cases h
      · intro h; simp [statusOf, List.find?] at h
    · trivial
  rw [hsplit] at htrace
  intro step hstep hres d hd
  rcases traceOk_split p.steps pre e post [] htrace r he step hstep hres d hd
    with h | h
  · cases h
  · exact h

/-- The plan computed for the repository's spec, used as the concrete C7
instance. -/
def c7Plan : ChangePlan :=
  match (planSpec repoModel store0 adapterAllOk false).1 with
  | Except.ok p => p
  | Except.error _ => ⟨[]⟩

/-- Witness for C7: in the concrete execution trace, the cluster had
succeeded within the events preceding the node-group step's in-progress
transition. -/
theorem claim_C7_witness :
    Event.change ResourceId.cluster StepStatus.succeeded ∈
      ((execPlan c7Plan store0 adapterAllOk 1).events.take 3) :=
  claim_C7_deps_succeed_first c7Plan store0 adapterAllOk 1 (by decide)
    ((execPlan c7Plan store0 adapterAllOk 1).events.take 3)
    (Event.change (ResourceId.nodeGroup "mng1") StepStatus.inProgress)
    ((execPlan c7Plan store0 adapterAllOk 1).events.drop 4)
    (ResourceId.nodeGroup "mng1") (by decide) (Or.inl rfl)
    ⟨ResourceId.nodeGroup "mng1", StepAction.create, [ResourceId.cluster],
      some (EntityAttrs.nodeGroup "t3.medium" 1 5 2 SubnetMode.privateWithEgress)⟩
    (by decide) rfl ResourceId.cluster (by decide)

/-- Record search is unaffected by filtering out a different id. -/
theorem find?_rid_filter_ne (l : List ResourceRecord) (x d : ResourceId)
    (hd : d ≠ x) :
    (l.filter fun old => old.rid ≠ x).find? (fun r => r.rid = d) =
    l.find? (fun r => r.rid = d) := by
  induction l with
  | nil => rfl
  | cons a rest ih =>
    by_cases ha : a.rid = d
    · have hne : a.rid ≠ x := by rw [ha]; exact hd
      rw [List.filter_cons_of_pos (by simp [hne]),
        List.find?_cons_of_pos _ (by simp [ha]),
        List.find?_cons_of_pos _ (by simp [ha])]
    · by_cases hax : a.rid ≠ x
      · rw [List.filter_cons_of_pos (by simp [hax]),
          List.find?_cons_of_neg _ (by simp [ha]),
          List.find?_cons_of_neg _ (by simp [ha]), ih]
      · rw [List.filter_cons_of_neg (by simp [not_not.mp hax]),
          List.find?_cons_of_neg _ (by simp [ha]), ih]

/-- Saving a record makes it the lookup result for its id. -/
theorem lookup_save_self (st : StateStore) (rec : ResourceRecord) :
    (st.save rec).lookup rec.rid = some rec := by
  unfold StateStore.save StateStore.lookup
  simp [List.find?]

/-- Saving a record leaves other ids' lookups unchanged. -/
theorem lookup_save_ne (st : StateStore) (rec : ResourceRecord)
    (d : ResourceId) (hd : d ≠ rec.rid) :
    (st.save rec).lookup d = st.lookup d := by
  unfold StateStore.save StateStore.lookup
  rw [List.find?_cons_of_neg _
    (by simp only [decide_eq_true_eq]; exact fun hx => hd hx.symm)]
  exact find?_rid_filter_ne st.records rec.rid d hd

/-- Removing an id empties its lookup. -/
theorem lookup_remove_self (st : StateStore) (r : ResourceId) :
    (st.remove r).lookup r = none := by
  unfold StateStore.remove StateStore.lookup
  rw [List.find?_eq_none]
  intro rec hrec
  have := (List.mem_filter.mp hrec).2
  simp only [decide_eq_true_eq] at this ⊢
  exact this

/-- Removing an id leaves other ids' lookups unchanged. -/
theorem lookup_remove_ne (st : StateStore) (r : ResourceId)
    (d : ResourceId) (hd : d ≠ r) :
    (st.remove r).lookup d = st.lookup d := by
  unfold StateStore.remove StateStore.lookup
  exact find?_rid_filter_ne st.records r d hd

/-- An id's lookup is empty exactly when no record carries it. -/
theorem lookup_eq_none_iff (st : StateStore) (r : ResourceId) :
    st.lookup r = none ↔ r ∉ st.records.map (·.rid) := by
  unfold StateStore.lookup
  rw [List.find?_eq_none]
  constructor
  · intro h hc
    obtain ⟨rec, hrec, hrid⟩ := List.mem_map.mp hc
    have := h rec hrec
    simp [hrid] at this
  · intro h rec hrec
    simp only [decide_eq_true_eq]
    intro hc
    exact h (List.mem_map.mpr ⟨rec, hrec, hc⟩)

/-- Every processed step prepends exactly one report entry, for its own
resource. -/
theorem processStep_report (ad : Adapter) (cap : Nat) (es : ExecState)
    (t : ChangeStep) :
    ∃ stt, (processStep ad cap es t).report = (t.resource, stt) :: es.report := by
  by_cases hdeps : depsOkB es.report t.deps = false
  · rw [processStep_skip ad cap es t hdeps]
    exact ⟨_, rfl⟩
  · have hdeps2 : depsOkB es.report t.deps = true := by
      cases h : depsOkB es.report t.deps
      · exact absurd h hdeps
      · rfl
    by_cases hnoop : t.action = StepAction.noop
    · rw [processStep_noop ad cap es t hdeps2 hnoop]
      exact ⟨_, rfl⟩
    · rw [processStep_run ad cap es t hdeps2 hnoop]
      by_cases hok : (tryApply ad t.resource t.action cap 0).1 = true
      · rw [if_pos hok]
        exact ⟨_, rfl⟩
      · rw [if_neg hok]
        exact ⟨_, rfl⟩

/-- A processed step touches no other resource's store record. -/
theorem processStep_store_other (ad : Adapter) (cap : Nat) (es : ExecState)
    (t : ChangeStep) (d : ResourceId) (hd : d ≠ t.resource) :
    (processStep ad cap es t).store.lookup d = es.store.lookup d := by
  by_cases hdeps : depsOkB es.report t.deps = false
  · rw [processStep_skip ad cap es t hdeps]
  · have hdeps2 : depsOkB es.report t.deps = true := by
      cases h : depsOkB es.report t.deps
      · exact absurd h hdeps
      · rfl
    by_cases hnoop : t.action = StepAction.noop
    · rw [processStep_noop ad cap es t hdeps2 hnoop]
    · rw [processStep_run ad cap es t hdeps2 hnoop]
      by_cases hok : (tryApply ad t.resource t.action cap 0).1 = true
      · rw [if_pos hok]
        show (match t.attrs with
          | some a =>
            if t.action = StepAction.delete then es.store.remove t.resource
            else es.store.save ⟨t.resource, "applied", a⟩
          | none => es.store.remove t.resource).lookup d = es.store.lookup d
        rcases t.attrs with _ | a
        · exact lookup_remove_ne es.store t.resource d hd
        · show (if t.action = StepAction.delete then es.store.remove t.resource
              else es.store.save ⟨t.resource, "applied", a⟩).lookup d =
            es.store.lookup d
          by_cases hdel : t.action = StepAction.delete
          · rw [if_pos hdel]
            exact lookup_remove_ne es.store t.resource d hd
          · rw [if_neg hdel]
            exact lookup_save_ne es.store ⟨t.resource, "applied", a⟩ d hd
      · rw [if_neg hok]

/-- Executing steps that do not target a resource leaves its status
unchanged. -/
theorem execSteps_status_frame (ad : Adapter) (cap : Nat) :
    ∀ (remaining : List ChangeStep) (es : ExecState) (d : ResourceId),
      (∀ t ∈ remaining, t.resource ≠ d) →
      statusOf (execSteps ad cap remaining es).report d = statusOf es.report d := by
  intro remaining
  induction remaining with
  | nil => intro es d _; rfl
  | cons t rest ih =>
    intro es d h
    show statusOf (execSteps ad cap rest (processStep ad cap es t)).report d =
      statusOf es.report d
    rw [ih (processStep ad cap es t) d fun u hu => h u (List.mem_cons_of_mem t hu)]
    obtain ⟨stt, hrep⟩ := processStep_report ad cap es t
    rw [hrep, statusOf_cons,
      if_neg fun hc => h t (List.mem_cons_self t rest) hc.symm]

/-- Executing steps that do not target a resource leaves its record
unchanged. -/
theorem execSteps_store_frame (ad : Adapter) (cap : Nat) :
    ∀ (remaining : List ChangeStep) (es : ExecState) (d : ResourceId),
      (∀ t ∈ remaining, t.resource ≠ d) →
      (execSteps ad cap remaining es).store.lookup d = es.store.lookup d := by
  intro remaining
  induction remaining with
  | nil => intro es d _; rfl
  | cons t rest ih =>
    intro es d h
    show (execSteps ad cap rest (processStep ad cap es t)).store.lookup d =
      es.store.lookup d
    rw [ih (processStep ad cap es t) d fun u hu => h u (List.mem_cons_of_mem t hu)]
    exact processStep_store_other ad cap es t d
      fun hc => h t (List.mem_cons_self t rest) hc.symm

/-- Any reported status originates in the initial report or in a step of the
executed list targeting that resource. -/
theorem execSteps_status_source (ad : Adapter) (cap : Nat) :
    ∀ (remaining : List ChangeStep) (es : ExecState) (d : ResourceId)
      (stt : StepStatus),
      statusOf (execSteps ad cap remaining es).report d = some stt →
      statusOf es.report d = some stt ∨ ∃ t ∈ remaining, t.resource = d := by
  intro remaining
  induction remaining with
  | nil => intro es d stt h; exact Or.inl h
  | cons t rest ih =>
    intro es d stt h
    rcases ih (processStep ad cap es t) d stt h with h1 | h1
    · obtain ⟨s2, hrep⟩ := processStep_report ad cap es t
      rw [hrep, statusOf_cons] at h1
      by_cases hd : d = t.resource
      · exact Or.inr ⟨t, List.mem_cons_self t rest, hd.symm⟩
      · rw [if_neg hd] at h1
        exact Or.inl h1
    · obtain ⟨u, hu, hud⟩ := h1
      exact Or.inr ⟨u, List.mem_cons_of_mem t hu, hud⟩

/-- Any provider call in the trace originates in the initial trace or in a
non-noop step of the executed list targeting that resource. -/
theorem execSteps_call_source (ad : Adapter) (cap : Nat) :
    ∀ (remaining : List ChangeStep) (es : ExecState) (r : ResourceId),
      Event.call r ∈ (execSteps ad cap remaining es).events →
      Event.call r ∈ es.events ∨
        ∃ t ∈ remaining, t.resource = r ∧ ¬ t.action = StepAction.noop := by
  intro remaining
  induction remaining with
  | nil => intro es r h; exact Or.inl h
  | cons t rest ih =>
    intro es r h
    rcases ih (processStep ad cap es t) r h with h1 | h1
    · by_cases hdeps : depsOkB es.report t.deps = false
      · rw [processStep_skip ad cap es t hdeps] at h1
        replace h1 : Event.call r ∈
            es.events ++ [Event.change t.resource StepStatus.skipped] := h1
        rcases List.mem_append.mp h1 with h2 | h2
        · exact Or.inl h2
        · simp at h2
      · have hdeps2 : depsOkB es.report t.deps = true := by
          cases hx : depsOkB es.report t.deps
          · exact absurd hx hdeps
          · rfl
        by_cases hnoop : t.action = StepAction.noop
        · rw [processStep_noop ad cap es t hdeps2 hnoop] at h1
          replace h1 : Event.call r ∈
              es.events ++ [Event.change t.resource StepStatus.succeeded] := h1
          rcases List.mem_append.mp h1 with h2 | h2
          · exact Or.inl h2
          · simp at h2
        · rw [processStep_run ad cap es t hdeps2 hnoop] at h1
          by_cases hok : (tryApply ad t.resource t.action cap 0).1 = true
          · rw [if_pos hok] at h1
            replace h1 : Event.call r ∈
                (es.events ++
                  Event.change t.resource StepStatus.inProgress ::
                    (tryApply ad t.resource t.action cap 0).2) ++
                  [Event.change t.resource StepStatus.succeeded] := h1
            rcases List.mem_append.mp h1 with h2 | h2
            · rcases List.mem_append.mp h2 with h3 | h3
              · exact Or.inl h3
              · rcases List.mem_cons.mp h3 with h4 | h4
                · exact Event.noConfusion h4
                · have hce := tryApply_calls ad t.resource t.action cap 0 _ h4
                  exact Or.inr ⟨t, List.mem_cons_self t rest,
                    (Event.call.inj hce).symm, hnoop⟩
            · simp at h2
          · rw [if_neg hok] at h1
            replace h1 : Event.call r ∈
                (es.events ++
                  Event.change t.resource StepStatus.inProgress ::
                    (tryApply ad t.resource t.action cap 0).2) ++
                  [Event.change t.resource StepStatus.failed] := h1
            rcases List.mem_append.mp h1 with h2 | h2
            · rcases List.mem_append.mp h2 with h3 | h3
              · exact Or.inl h3
              · rcases List.mem_cons.mp h3 with h4 | h4
                · exact Event.noConfusion h4
                · have hce := tryApply_calls ad t.resource t.action cap 0 _ h4
                  exact Or.inr ⟨t, List.mem_cons_self t rest,
                    (Event.call.inj hce).symm, hnoop⟩
            · simp at h2
    · obtain ⟨u, hu, hur, hua⟩ := h1
      exact Or.inr ⟨u, List.mem_cons_of_mem t hu, hur, hua⟩

/-- The State Store obligation of a succeeded step: noops leave the record
as it was, deletions remove it, creations and updates record the desired
attributes. -/
def StoreFact (t : ChangeStep) (st0 stf : StateStore) : Prop :=
  if t.action = StepAction.noop then
    stf.lookup t.resource = st0.lookup t.resource
  else
    match t.attrs with
    | some a =>
      if t.action = StepAction.delete then stf.lookup t.resource = none
      else stf.lookup t.resource = some ⟨t.resource, "applied", a⟩
    | none => stf.lookup t.resource = none

/-- Every step reported succeeded by a run over duplicate-free resources
establishes its store obligation relative to the store at the start of the
run. -/
theorem execSteps_storeFact (ad : Adapter) (cap : Nat) :
    ∀ (remaining : List ChangeStep) (es : ExecState),
      ((remaining.map (·.resource)).Nodup) →
      ∀ t ∈ remaining,
        statusOf (execSteps ad cap remaining es).report t.resource =
          some StepStatus.succeeded →
        StoreFact t es.store (execSteps ad cap remaining es).store := by
  intro remaining
  induction remaining with
  | nil => intro es _ t ht; cases ht
  | cons u rest ih =>
    intro es hnd t ht hsucc
    rw [List.map_cons] at hnd
    have hrestne : ∀ v ∈ rest, v.resource ≠ u.resource := by
      intro v hv hc
      exact (List.nodup_cons.mp hnd).1 (hc ▸ List.mem_map.mpr ⟨v, hv, rfl⟩)
    rcases List.mem_cons.mp ht with heq | hrest
    · subst heq
      replace hsucc : statusOf
          (execSteps ad cap rest (processStep ad cap es t)).report t.resource =
          some StepStatus.succeeded := hsucc
      have hframe := execSteps_status_frame ad cap rest
        (processStep ad cap es t) t.resource hrestne
      rw [hframe] at hsucc
      have hsframe := execSteps_store_frame ad cap rest
        (processStep ad cap es t) t.resource hrestne
      by_cases hdeps : depsOkB es.report t.deps = false
      · rw [processStep_skip ad cap es t hdeps] at hsucc
        replace hsucc : statusOf
            ((t.resource, StepStatus.skipped) :: es.report) t.resource =
            some StepStatus.succeeded := hsucc
        rw [statusOf_cons, if_pos rfl] at hsucc
        exact absurd (Option.some.inj hsucc) (fun hx => StepStatus.noConfusion hx)
      · have hdeps2 : depsOkB es.report t.deps = true := by
          cases hx : depsOkB es.report t.deps
          · exact absurd hx hdeps
          · rfl
        by_cases hnoop : t.action = StepAction.noop
        · unfold StoreFact
          rw [if_pos hnoop]
          show (execSteps ad cap rest (processStep ad cap es t)).store.lookup
              t.resource = es.store.lookup t.resource
          rw [hsframe, processStep_noop ad cap es t hdeps2 hnoop]
        · by_cases hok : (tryApply ad t.resource t.action cap 0).1 = true
          · unfold StoreFact
            rw [if_neg hnoop]
            have hstore : (execSteps ad cap rest
                (processStep ad cap es t)).store.lookup t.resource =
                (processStep ad cap es t).store.lookup t.resource := hsframe
            rcases hattr : t.attrs with _ | a
            · show (execSteps ad cap rest
                  (processStep ad cap es t)).store.lookup t.resource = none
              rw [hstore, processStep_run ad cap es t hdeps2 hnoop, if_pos hok]
              show (match t.attrs with
                | some a =>
                  if t.action = StepAction.delete then es.store.remove t.resource
                  else es.store.save ⟨t.resource, "applied", a⟩
                | none => es.store.remove t.resource).lookup t.resource = none
              rw [hattr]
              exact lookup_remove_self es.store t.resource
            · show (if t.action = StepAction.delete then
                  (execSteps ad cap rest
                    (processStep ad cap es t)).store.lookup t.resource = none
                else
                  (execSteps ad cap rest
                    (processStep ad cap es t)).store.lookup t.resource =
                    some ⟨t.resource, "applied", a⟩)
              have hred : (processStep ad cap es t).store.lookup t.resource =
                  (if t.action = StepAction.delete then
                    es.store.remove t.resource
                  else es.store.save ⟨t.resource, "applied", a⟩).lookup
                    t.resource := by
                rw [processStep_run ad cap es t hdeps2 hnoop, if_pos hok]
                show (match t.attrs with
                  | some a =>
                    if t.action = StepAction.delete then es.store.remove t.resource
                    else es.store.save ⟨t.resource, "applied", a⟩
                  | none => es.store.remove t.resource).lookup t.resource = _
                rw [hattr]
              by_cases hdel : t.action = StepAction.delete
              · rw [if_pos hdel]
                rw [hstore, hred, if_pos hdel]
                exact lookup_remove_self es.store t.resource
              · rw [if_neg hdel]
                rw [hstore, hred, if_neg hdel]
                exact lookup_save_self es.store ⟨t.resource, "applied", a⟩
          · rw [processStep_run ad cap es t hdeps2 hnoop, if_neg hok] at hsucc
            replace hsucc : statusOf
                ((t.resource, StepStatus.failed) :: es.report) t.resource =
                some StepStatus.succeeded := hsucc
            rw [statusOf_cons, if_pos rfl] at hsucc
            exact absurd (Option.some.inj hsucc)
              (fun hx => StepStatus.noConfusion hx)
    · have htne : t.resource ≠ u.resource := hrestne t hrest
      have hfact := ih (processStep ad cap es u) (List.nodup_cons.mp hnd).2
        t hrest hsucc
      unfold StoreFact at hfact ⊢
      by_cases hnoop : t.action = StepAction.noop
      · rw [if_pos hnoop] at hfact ⊢
        show (execSteps ad cap rest (processStep ad cap es u)).store.lookup
            t.resource = es.store.lookup t.resource
        rw [hfact, processStep_store_other ad cap es u t.resource htne]
      · rw [if_neg hnoop] at hfact ⊢
        exact hfact

/-- Every plan skeleton is a desired entity or a stored delete candidate. -/
theorem planSkeletons_mem_cases (s : ClusterSpec) (st : StateStore) (sk : Skel)
    (h : sk ∈ planSkeletons s st) :
    (desiredAttrs s sk.1).isSome = true ∨
    (desiredAttrs s sk.1 = none ∧ sk.1 ∈ st.records.map (·.rid)) := by
  unfold planSkeletons at h
  rcases List.mem_append.mp h with h1 | h1
  · obtain ⟨e, he, hesk⟩ := List.mem_map.mp h1
    left
    have he1 : e.1 = sk.1 := by rw [← hesk]
    have hfs : ((desiredEntities s).find? fun e2 => e2.1 = sk.1).isSome = true := by
      rw [List.find?_isSome]
      exact ⟨e, he, by simp [he1]⟩
    unfold desiredAttrs
    cases hfind : (desiredEntities s).find? fun e2 => e2.1 = sk.1 with
    | none => rw [hfind] at hfs; exact absurd hfs (by simp)
    | some x => rfl
  · obtain ⟨rec, hrec, hresk⟩ := List.mem_map.mp h1
    right
    have hr1 : rec.rid = sk.1 := by rw [← hresk]
    have hcond := of_decide_eq_true (List.mem_filter.mp hrec).2
    constructor
    · unfold desiredAttrs
      rw [← hr1, hcond]
      rfl
    · exact List.mem_map.mpr ⟨rec, (List.mem_filter.mp hrec).1, hr1⟩

/-- Classification when the resource is desired: its attributes are carried
on the step, the step is never a deletion, and a noop implies the store
already records the desired attributes. -/
theorem classify_desired (s : ClusterSpec) (st : StateStore) (sk : Skel)
    (a : EntityAttrs) (hda : desiredAttrs s sk.1 = some a) :
    (classify s st sk).attrs = some a ∧
    ¬ (classify s st sk).action = StepAction.delete ∧
    ((classify s st sk).action = StepAction.noop →
      ∃ rec, st.lookup sk.1 = some rec ∧ rec.attrs = a) := by
  cases hlk : st.lookup sk.1 with
  | none =>
    have hc : classify s st sk =
        ⟨sk.1, StepAction.create, sk.2, some a⟩ := by
      simp only [classify, hda, hlk]
    rw [hc]
    exact ⟨rfl, fun hc2 => StepAction.noConfusion hc2,
      fun hc2 => absurd hc2 (fun hx => StepAction.noConfusion hx)⟩
  | some rec =>
    by_cases hrec : rec.attrs = a
    · have hc : classify s st sk =
          ⟨sk.1, StepAction.noop, sk.2, some a⟩ := by
        simp only [classify, hda, hlk]
        rw [if_pos hrec]
      rw [hc]
      exact ⟨rfl, fun hc2 => StepAction.noConfusion hc2,
        fun _ => ⟨rec, rfl, hrec⟩⟩
    · have hc : classify s st sk =
          ⟨sk.1, StepAction.update, sk.2, some a⟩ := by
        simp only [classify, hda, hlk]
        rw [if_neg hrec]
      rw [hc]
      exact ⟨rfl, fun hc2 => StepAction.noConfusion hc2,
        fun hc2 => absurd hc2 (fun hx => StepAction.noConfusion hx)⟩

/-- Classification when the resource is no longer desired: a deletion
carrying no attributes. -/
theorem classify_undesired (s : ClusterSpec) (st : StateStore) (sk : Skel)
    (hda : desiredAttrs s sk.1 = none) :
    (classify s st sk).action = StepAction.delete ∧
    (classify s st sk).attrs = none := by
  have hc : classify s st sk = ⟨sk.1, StepAction.delete, sk.2, none⟩ := by
    simp only [classify, hda]
  rw [hc]
  exact ⟨rfl, rfl⟩

/-- Classification is a noop when the store already records the desired
attributes. -/
theorem classify_noop_of_match (s : ClusterSpec) (st : StateStore) (sk : Skel)
    (a : EntityAttrs) (rec : ResourceRecord)
    (hda : desiredAttrs s sk.1 = some a)
    (hlk : st.lookup sk.1 = some rec) (hrec : rec.attrs = a) :
    (classify s st sk).action = StepAction.noop := by
  have hc : classify s st sk = ⟨sk.1, StepAction.noop, sk.2, some a⟩ := by
    simp only [classify, hda, hlk]
    rw [if_pos hrec]
  rw [hc]

/-- Resource ids of an engine-produced plan are pairwise distinct. -/
theorem planSpec_steps_nodup (m : SpecModel) (st : StateStore) (ad : Adapter)
    (force : Bool) (p : ChangePlan) (tr : List ProviderCall)
    (ha : (m.spec.addOns.map (·.name)).Nodup)
    (hrec : (st.records.map (·.rid)).Nodup)
    (h : planSpec m st ad force = (Except.ok p, tr)) :
    (p.steps.map (·.resource)).Nodup := by
  obtain ⟨sorted, htopo, hsteps⟩ := planSpec_ok_elim m st ad force p tr h
  obtain ⟨hinv, hperm⟩ := topoSort_sound _ _ htopo
  have hok := (validateSpec_ok_iff m.spec).mp m.valid
  have hng := ((uniqueIdsOkB_iff m.spec).mp hok.2.2).1
  have htm := ((uniqueIdsOkB_iff m.spec).mp hok.2.2).2
  have hskelnd := planSkeletons_nodup m.spec st hng htm ha hrec
  have hndout : (sorted.map (·.1)).Nodup := (hperm.map (·.1)).nodup_iff.mp hskelnd
  have hcomp : ((fun st => st.resource) ∘ classify m.spec st) = (·.1) :=
    funext (classify_resource m.spec st)
  rw [hsteps, List.map_map, hcomp]
  exact hndout

/-- Every step of an engine-produced plan is the classification of one of
the spec's skeletons. -/
theorem planSpec_step_skel (m : SpecModel) (st : StateStore) (ad : Adapter)
    (force : Bool) (p : ChangePlan) (tr : List ProviderCall)
    (h : planSpec m st ad force = (Except.ok p, tr)) :
    ∀ t ∈ p.steps, ∃ sk ∈ planSkeletons m.spec st,
      t = classify m.spec st sk ∧ t.resource = sk.1 := by
  obtain ⟨sorted, htopo, hsteps⟩ := planSpec_ok_elim m st ad force p tr h
  obtain ⟨hinv, hperm⟩ := topoSort_sound _ _ htopo
  intro t ht
  rw [hsteps] at ht
  obtain ⟨sk, hsk, hskc⟩ := List.mem_map.mp ht
  exact ⟨sk, hperm.mem_iff.mpr hsk, hskc.symm,
    by rw [← hskc, classify_resource]⟩

/-- C8: rerunning apply after a run re-attempts only unfinished work — for
every resource whose step succeeded in the earlier run (its ResourceRecord
having been written to the State Store immediately on completion), the rerun
issues no provider call for it: the replanned step is a noop (or absent, for
completed deletions). -/
theorem claim_C8_idempotent_resume
    (m : SpecModel) (st0 : StateStore)
    (ad0 ad1 ad2 ad3 : Adapter) (f0 f2 : Bool) (cap1 cap2 : Nat)
    (p1 p2 : ChangePlan) (tr1 tr2 : List ProviderCall)
    (ha : (m.spec.addOns.map (·.name)).Nodup)
    (hrec : (st0.records.map (·.rid)).Nodup)
    (h1 : planSpec m st0 ad0 f0 = (Except.ok p1, tr1))
    (r : ResourceId)
    (hsucc : statusOf (execPlan p1 st0 ad1 cap1).report r =
      some StepStatus.succeeded)
    (h2 : planSpec m (execPlan p1 st0 ad1 cap1).store ad2 f2 =
      (Except.ok p2, tr2)) :
    Event.call r ∉
      (execPlan p2 (execPlan p1 st0 ad1 cap1).store ad3 cap2).events := by
  intro hcall
  have hnd1 := planSpec_steps_nodup m st0 ad0 f0 p1 tr1 ha hrec h1
  have hsrc := execSteps_status_source ad1 cap1 p1.steps ⟨[], st0, []⟩ r
    StepStatus.succeeded hsucc
  rcases hsrc with hbad | ⟨t, htmem, htres⟩
  · exact Option.noConfusion hbad
  · have hfact := execSteps_storeFact ad1 cap1 p1.steps ⟨[], st0, []⟩ hnd1 t htmem
      (by rw [htres]; exact hsucc)
    obtain ⟨sk1, hsk1, hteq, htres2⟩ :=
      planSpec_step_skel m st0 ad0 f0 p1 tr1 h1 t htmem
    subst hteq
    have hcallsrc := execSteps_call_source ad3 cap2 p2.steps
      ⟨[], (execPlan p1 st0 ad1 cap1).store, []⟩ r hcall
    rcases hcallsrc with hbad | ⟨t2, ht2mem, ht2res, ht2noop⟩
    · cases hbad
    · obtain ⟨sk2, hsk2, ht2eq, ht2res2⟩ :=
        planSpec_step_skel m (execPlan p1 st0 ad1 cap1).store ad2 f2 p2 tr2 h2
          t2 ht2mem
      subst ht2eq
      have hrsk1 : sk1.1 = r := by rw [← htres2, htres]
      have hrsk2 : sk2.1 = r := by rw [← ht2res2, ht2res]
      cases hda : desiredAttrs m.spec r with
      | some a =>
        obtain ⟨hattrs, hnotdel, hnoopc⟩ :=
          classify_desired m.spec st0 sk1 a (by rw [hrsk1]; exact hda)
        unfold StoreFact at hfact
        have hstore1r : ∃ rec2,
            (execPlan p1 st0 ad1 cap1).store.lookup r = some rec2 ∧
            rec2.attrs = a := by
          by_cases hnoop : (classify m.spec st0 sk1).action = StepAction.noop
          · rw [if_pos hnoop] at hfact
            obtain ⟨rec0, hlk0, hrec0⟩ := hnoopc hnoop
            refine ⟨rec0, ?_, hrec0⟩
            rw [← htres]
            show (execSteps ad1 cap1 p1.steps ⟨[], st0, []⟩).store.lookup
                (classify m.spec st0 sk1).resource = some rec0
            rw [hfact]
            rw [show (⟨[], st0, []⟩ : ExecState).store = st0 from rfl]
            rw [show (classify m.spec st0 sk1).resource = sk1.1 from
              classify_resource m.spec st0 sk1]
            exact hlk0
          · rw [if_neg hnoop] at hfact
            simp only [hattrs] at hfact
            rw [if_neg hnotdel] at hfact
            refine ⟨⟨(classify m.spec st0 sk1).resource, "applied", a⟩, ?_, rfl⟩
            rw [← htres]
            exact hfact
        obtain ⟨rec2, hlk2, hrec2⟩ := hstore1r
        have hnoop2 := classify_noop_of_match m.spec
          (execPlan p1 st0 ad1 cap1).store sk2 a rec2
          (by rw [hrsk2]; exact hda) (by rw [hrsk2]; exact hlk2) hrec2
        exact ht2noop hnoop2
      | none =>
        obtain ⟨hdel, hattrs⟩ :=
          classify_undesired m.spec st0 sk1 (by rw [hrsk1]; exact hda)
        unfold StoreFact at hfact
        rw [if_neg (by rw [hdel]; intro hx; exact StepAction.noConfusion hx)]
          at hfact
        simp only [hattrs] at hfact
        rcases planSkeletons_mem_cases m.spec (execPlan p1 st0 ad1 cap1).store
            sk2 hsk2 with hx | ⟨hnone, hmem⟩
        · rw [hrsk2, hda] at hx
          simp at hx
        · rw [hrsk2] at hmem
          have hlknone : (execPlan p1 st0 ad1 cap1).store.lookup r = none := by
            rw [← htres]
            exact hfact
          exact (lookup_eq_none_iff (execPlan p1 st0 ad1 cap1).store r).mp
            hlknone hmem

/-- First-run plan for the repository's spec against the empty store. -/
def c8Plan1 : ChangePlan :=
  match (planSpec repoModel store0 adapterAllOk false).1 with
  | Except.ok p => p
  | Except.error _ => ⟨[]⟩

/-- State Store after executing the first run. -/
def c8Store1 : StateStore := (execPlan c8Plan1 store0 adapterAllOk 1).store

/-- Replanned ChangePlan for the rerun over the updated store. -/
def c8Plan2 : ChangePlan :=
  match (planSpec repoModel c8Store1 adapterAllOk true).1 with
  | Except.ok p => p
  | Except.error _ => ⟨[]⟩

/-- Witness for C8: after the cluster create succeeded in the first run, the
rerun issues no provider call for the cluster. -/
theorem claim_C8_witness :
    Event.call ResourceId.cluster ∉
      (execPlan c8Plan2 c8Store1 adapterAllOk 1).events :=
  claim_C8_idempotent_resume repoModel store0 adapterAllOk adapterAllOk
    adapterAllOk adapterAllOk false true 1 1 c8Plan1 c8Plan2 []
    (planSpec repoModel c8Store1 adapterAllOk true).2
    (by decide) (by decide) (by decide) ResourceId.cluster (by decide)
    (by decide)
